import Mathlib

/-!
Verification of the two placement planners of the
`proxmox_upgrade` Ansible collection:

* `src/plugins/filter/load_balance.py` — `load_balance_plan`,
  the count-based rebalance planner;
* `src/plugins/filter/migration_plan.py` — `_migration_plan`,
  the worst-fit-decreasing evacuation planner.

Python dictionaries are modelled as association lists with
insertion-order semantics (`dictInsert` replaces an existing key in
place, otherwise appends), Python's stable `list.sort` as a stable
insertion sort, Python string comparison as code-point-lexicographic
comparison of the character lists, and Python numbers (which are ints
and floats in the source) as rationals.  `AnsibleFilterError` raised by
the evacuation planner is modelled with `Except`.
-/

namespace ProxmoxUpgrade

/-! ### Python dictionary and sorting primitives -/

/-- Insert into a Python-style dict: replace the value of an existing
key in place, otherwise append at the end (insertion order). -/
def dictInsert {β : Type} (k : String) (v : β) : List (String × β) → List (String × β)
  | [] => [(k, v)]
  | e :: rest => if e.1 = k then (k, v) :: rest else e :: dictInsert k v rest

/-- The keys of a dict, in order. -/
def dictKeys {β : Type} (d : List (String × β)) : List String := d.map Prod.fst

/-- Dictionary lookup (first matching key). -/
def dictLookup {β : Type} (k : String) : List (String × β) → Option β
  | [] => none
  | e :: rest => if e.1 = k then some e.2 else dictLookup k rest

/-- Insert `x` into a list, keeping every `y` with `r y x = true` before
it.  With `r y x` read as "`y` may stay before `x`" this places `x`
after all elements it ties with, which is exactly the stable behaviour
of Python's `list.sort`. -/
def insertKeep {α : Type} (r : α → α → Bool) (x : α) : List α → List α
  | [] => [x]
  | y :: ys => if r y x then y :: insertKeep r x ys else x :: y :: ys

/-- Stable insertion sort: the model of Python's stable `list.sort` /
`sorted` with a total preorder `r` ("comes weakly before"). -/
def stableSort {α : Type} (r : α → α → Bool) (l : List α) : List α :=
  l.foldl (fun acc x => insertKeep r x acc) []

/-- Code-point lexicographic strict comparison of character lists: the
model of Python's `<` on strings. -/
def lexLtChars : List Char → List Char → Bool
  | [], [] => false
  | [], _ :: _ => true
  | _ :: _, [] => false
  | a :: as, b :: bs =>
    if a.val.toNat < b.val.toNat then true
    else if b.val.toNat < a.val.toNat then false
    else lexLtChars as bs

/-- Python's `<=` on strings (total order, by code points). -/
def pyStrLe (a b : String) : Bool := !(lexLtChars b.data a.data)

/-- The keys a Python dict ends up with when the elements of `l` are
used as keys in order: first occurrences, in order of first
appearance.  `seen` accumulates the keys already present. -/
def firstKeys : List String → List String → List String
  | [], _ => []
  | x :: xs, seen => if x ∈ seen then firstKeys xs seen else x :: firstKeys xs (x :: seen)

/-- Key order of a dict built over the elements of `l`. -/
def dictOrder (l : List String) : List String := firstKeys l []

/-! ### Embedding of `src/plugins/filter/load_balance.py` -/

/-- A VM descriptor as read by `load_balance_plan` (`vm["name"]`,
`vm["node"]`). -/
structure LBVM where
  name : String
  node : String
deriving DecidableEq, Repr

/-- A node descriptor as read by `load_balance_plan` (`node["node"]`,
`node["status"]`). -/
structure LBNode where
  node : String
  status : String
deriving DecidableEq, Repr

/-- One value of the returned migration-plan dict:
`{"source_node": ..., "target_node": ...}`. -/
structure Move where
  source_node : String
  target_node : String
deriving DecidableEq, Repr

/-- The returned plan: a dict from VM name to `Move`. -/
abbrev LBPlan := List (String × Move)

/-- `online_nodes = [node["node"] for node in nodes if node.get("status") == "online"]`. -/
def online_nodes (nodes : List LBNode) : List String :=
  (nodes.filter (fun n => decide (n.status = "online"))).map (fun n => n.node)

/-- The final value `vm_count_per_node[n]`: every VM whose `node` field
equals the online node `n` is counted once (lines 104–117 of the
source initialise the counter to 0 for each online node and increment
it for each VM sitting on an online node). -/
def vm_count_per_node (vms : List LBVM) (n : String) : Nat :=
  (vms.filter (fun vm => decide (vm.node = n))).length

/-- `target_vms_per_node = total_vms // len(online_nodes)` with
`total_vms = len(vms)`. -/
def target_base (vms : List LBVM) (nodes : List LBNode) : Nat :=
  vms.length / (online_nodes nodes).length

/-- `remainder = total_vms % len(online_nodes)`. -/
def target_remainder (vms : List LBVM) (nodes : List LBNode) : Nat :=
  vms.length % (online_nodes nodes).length

/-- `target_distribution`: iterate `enumerate(sorted(online_nodes))`,
assigning `target_vms_per_node + (1 if i < remainder else 0)` to each
node key. -/
def target_distribution (vms : List LBVM) (nodes : List LBNode) : List (String × Nat) :=
  ((stableSort pyStrLe (online_nodes nodes)).enum).foldl
    (fun acc p =>
      dictInsert p.2
        (target_base vms nodes + if p.1 < target_remainder vms nodes then 1 else 0) acc)
    []

/-- `target_distribution[n]` (the key is always present when `n` is an
online node; `0` is returned for absent keys). -/
def target_count (vms : List LBVM) (nodes : List LBNode) (n : String) : Nat :=
  (dictLookup n (target_distribution vms nodes)).getD 0

/-- The `overloaded_nodes` list after its descending sort: nodes (in
`vm_count_per_node` key order) whose current count exceeds the target,
tagged with the excess, sorted by excess descending (stable). -/
def overloaded_nodes (vms : List LBVM) (nodes : List LBNode) : List (String × Nat) :=
  stableSort (fun a b => decide (b.2 ≤ a.2))
    ((dictOrder (online_nodes nodes)).filterMap (fun n =>
      if target_count vms nodes n < vm_count_per_node vms n
      then some (n, vm_count_per_node vms n - target_count vms nodes n) else none))

/-- The `underloaded_nodes` list after its descending sort. -/
def underloaded_nodes (vms : List LBVM) (nodes : List LBNode) : List (String × Nat) :=
  stableSort (fun a b => decide (b.2 ≤ a.2))
    ((dictOrder (online_nodes nodes)).filterMap (fun n =>
      if vm_count_per_node vms n < target_count vms nodes n
      then some (n, target_count vms nodes n - vm_count_per_node vms n) else none))

/-- The inner `for vm in vms_on_source` loop (lines 164–174): walk the
VMs on the source node, claiming up to `needed` VMs not already in the
plan; returns the extended plan and the number migrated. -/
def migrateFrom (src tgt : String) :
    List LBVM → Nat → Nat → LBPlan → LBPlan × Nat
  | [], _, migrated, plan => (plan, migrated)
  | vm :: rest, needed, migrated, plan =>
    if needed ≤ migrated then (plan, migrated)
    else if vm.name ∈ dictKeys plan then migrateFrom src tgt rest needed migrated plan
    else migrateFrom src tgt rest needed (migrated + 1) (plan ++ [(vm.name, ⟨src, tgt⟩)])

/-- The `while overload_idx < len(overloaded_nodes) and underload_idx <
len(underloaded_nodes)` loop (lines 152–188), with explicit fuel.  On
inputs with distinct VM names each iteration advances an index, so
`over.length + under.length` fuel runs the loop to completion; the
Python loop does not terminate on (undefined-behaviour) inputs whose
duplicate names starve an iteration, and there the fuel variant stops
with the plan built so far. -/
def balanceLoop (vms : List LBVM) :
    Nat → List (String × Nat) → List (String × Nat) → Nat → Nat → LBPlan → LBPlan
  | 0, _, _, _, _, plan => plan
  | fuel + 1, over, under, oi, ui, plan =>
    if h : oi < over.length ∧ ui < under.length then
      let src := (over.get ⟨oi, h.1⟩).1
      let excess := (over.get ⟨oi, h.1⟩).2
      let tgt := (under.get ⟨ui, h.2⟩).1
      let deficit := (under.get ⟨ui, h.2⟩).2
      let needed := min excess deficit
      let res := migrateFrom src tgt (vms.filter (fun vm => decide (vm.node = src))) needed 0 plan
      let over' := if excess - res.2 = 0 then over else over.set oi (src, excess - res.2)
      let oi' := if excess - res.2 = 0 then oi + 1 else oi
      let under' := if deficit - res.2 = 0 then under else under.set ui (tgt, deficit - res.2)
      let ui' := if deficit - res.2 = 0 then ui + 1 else ui
      balanceLoop vms fuel over' under' oi' ui' res.1
    else plan

/-- `load_balance_plan(vms, nodes)` (lines 73–190). -/
def load_balance_plan (vms : List LBVM) (nodes : List LBNode) : LBPlan :=
  if vms = [] ∨ nodes = [] then []
  else if (online_nodes nodes).length < 2 then []
  else
    balanceLoop vms
      ((overloaded_nodes vms nodes).length + (underloaded_nodes vms nodes).length)
      (overloaded_nodes vms nodes) (underloaded_nodes vms nodes) 0 0 []

/-! ### Embedding of `src/plugins/filter/migration_plan.py` -/

/-- A VM descriptor as consumed by `_migration_plan` (the fields read
from each `vm_result`; Python numbers are modelled as rationals). -/
structure PVM where
  name : String
  cpu : ℚ
  maxcpu : ℚ
  mem : ℚ
  maxmem : ℚ
  node : String
  status : String
deriving DecidableEq, Repr

/-- The dict produced by `_vm_result_to_dict` (same fields minus
`status`). -/
structure PVMRec where
  name : String
  cpu : ℚ
  maxcpu : ℚ
  mem : ℚ
  maxmem : ℚ
  node : String
deriving DecidableEq, Repr

/-- `_vm_result_to_dict` (lines 84–96). -/
def vm_result_to_dict (vm : PVM) : PVMRec :=
  ⟨vm.name, vm.cpu, vm.maxcpu, vm.mem, vm.maxmem, vm.node⟩

/-- A node descriptor as consumed by `_migration_plan`. -/
structure PNode where
  node : String
  cpu : ℚ
  maxcpu : ℚ
  mem : ℚ
  maxmem : ℚ
deriving DecidableEq, Repr

/-- One value of the `proxmox_nodes` working dict (lines 141–151). -/
structure NodeRes where
  available_cpu : ℚ
  available_mem : ℚ
  maxcpu : ℚ
  maxmem : ℚ
  vms : List PVMRec
deriving DecidableEq, Repr

/-- The `proxmox_nodes` working dict. -/
abbrev NodeState := List (String × NodeRes)

/-- `_node_can_handle_vm` (lines 98–108). -/
def node_can_handle_vm (r : NodeRes) (vm : PVMRec) : Prop :=
  vm.cpu ≤ r.available_cpu ∧ vm.mem ≤ r.available_mem ∧
    vm.maxcpu ≤ r.maxcpu ∧ vm.maxmem ≤ r.maxmem

instance (r : NodeRes) (vm : PVMRec) : Decidable (node_can_handle_vm r vm) := by
  unfold node_can_handle_vm; infer_instance

/-- `_calculate_overcommitment` (lines 110–120).  Division is field
division on ℚ (so total); the divisor being zero corresponds to the
`ZeroDivisionError` branch of the Python code, which claim C9 shows
unreachable under the stated positivity precondition. -/
def calculate_overcommitment (r : NodeRes) : ℚ × ℚ :=
  ((r.vms.map PVMRec.maxcpu).sum / r.maxcpu,
   (r.vms.map PVMRec.maxmem).sum / r.maxmem)

/-- `cpu_weight = 1` (line 161). -/
def cpu_weight : ℚ := 1

/-- `mem_weight = 1` (line 162). -/
def mem_weight : ℚ := 1

/-- `available_resources_weight = 1` (line 165). -/
def available_resources_weight : ℚ := 1

/-- `overcommitment_weight = 1.25` (line 166). -/
def overcommitment_weight : ℚ := 5 / 4

/-- The combined score computed for a feasible node (lines 177–194). -/
def combined_score (r : NodeRes) (vm : PVMRec) : ℚ :=
  ((r.available_cpu / max vm.cpu (1 / 10000)) * cpu_weight +
      (r.available_mem / max vm.mem 1) * mem_weight) * available_resources_weight -
    ((calculate_overcommitment r).1 * cpu_weight +
      (calculate_overcommitment r).2 * mem_weight) * overcommitment_weight

/-- The inner `for node, resources in proxmox_nodes.items()` loop
(lines 170–198): fold the running `(best_fit_node, best_combined_score)`
pair, starting from `(None, 0)`, updating whenever a feasible node's
combined score strictly exceeds the running best. -/
def bestAux (vm : PVMRec) : NodeState → Option String × ℚ → Option String × ℚ
  | [], acc => acc
  | e :: rest, acc =>
    if node_can_handle_vm e.2 vm ∧ acc.2 < combined_score e.2 vm then
      bestAux vm rest (some e.1, combined_score e.2 vm)
    else bestAux vm rest acc

/-- The result of the scan for one VM. -/
def best_fit (st : NodeState) (vm : PVMRec) : Option String × ℚ :=
  bestAux vm st (none, 0)

/-- Resource deduction after an assignment (lines 204–206): subtract
the VM's current cpu/mem from the chosen node's available cpu/mem. -/
def consumeNode (st : NodeState) (n : String) (vm : PVMRec) : NodeState :=
  st.map (fun e =>
    if e.1 = n then
      (e.1, { e.2 with
                available_cpu := e.2.available_cpu - vm.cpu,
                available_mem := e.2.available_mem - vm.mem })
    else e)

/-- The payload of the `AnsibleFilterError` raised at lines 208–212:
`f"VM {vm['name']} cannot be migrated. Reasons: CPU: needed {vm['cpu']},
Mem: needed {vm['mem']})"`. -/
structure PlanError where
  vmName : String
  cpuNeeded : ℚ
  memNeeded : ℚ
deriving DecidableEq, Repr

/-- The outer `for vm in proxmox_vms` placement loop (lines 169–212).
`if best_fit_node:` is Python truthiness: both `None` and the empty
string are falsy, so a best node named `""` also takes the error
branch. -/
def placeAll :
    List PVMRec → NodeState → List (String × String) →
      Except PlanError (List (String × String) × NodeState)
  | [], st, plan => .ok (plan, st)
  | vm :: rest, st, plan =>
    match (best_fit st vm).1 with
    | some n =>
      if n = "" then .error ⟨vm.name, vm.cpu, vm.mem⟩
      else placeAll rest (consumeNode st n vm) (dictInsert vm.name n plan)
    | none => .error ⟨vm.name, vm.cpu, vm.mem⟩

/-- `proxmox_vms` (lines 134–138): VMs on the node being upgraded whose
status is not `"stopped"`, passed through `_vm_result_to_dict`. -/
def candidate_vms (vms : List PVM) (node_to_upgrade : String) : List PVMRec :=
  (vms.filter (fun vm =>
    decide (vm.node = node_to_upgrade) && decide (vm.status ≠ "stopped"))).map
    vm_result_to_dict

/-- The initial `proxmox_nodes` dict (lines 141–151), built over every
node other than `node_to_upgrade`. -/
def init_nodes (vms : List PVM) (nodes : List PNode) (node_to_upgrade : String) : NodeState :=
  (nodes.filter (fun n => decide (n.node ≠ node_to_upgrade))).foldl
    (fun acc n =>
      dictInsert n.node
        { available_cpu := n.maxcpu - n.cpu
          available_mem := n.maxmem - n.mem
          maxcpu := n.maxcpu
          maxmem := n.maxmem
          vms := (candidate_vms vms node_to_upgrade).filter
            (fun vm => decide (vm.node = n.node)) } acc)
    []

/-- "`a` may stay before `b`" for the candidate sort (line 155):
descending, memory first, cpu as tiebreak. -/
def vmOrder (a b : PVMRec) : Bool :=
  decide (b.mem < a.mem ∨ (b.mem = a.mem ∧ b.cpu ≤ a.cpu))

/-- `proxmox_vms.sort(key=lambda vm: (vm["mem"], vm["cpu"]),
reverse=True)` (line 155). -/
def sorted_candidates (vms : List PVM) (node_to_upgrade : String) : List PVMRec :=
  stableSort vmOrder (candidate_vms vms node_to_upgrade)

/-- `_migration_plan(vms, nodes, node_to_upgrade)` (lines 122–214). -/
def migration_plan (vms : List PVM) (nodes : List PNode) (node_to_upgrade : String) :
    Except PlanError (List (String × String)) :=
  if ∀ vm ∈ vms, vm.node ≠ node_to_upgrade then .ok []
  else
    (placeAll (sorted_candidates vms node_to_upgrade)
      (init_nodes vms nodes node_to_upgrade) []).map Prod.fst

/-! ### Utility lemmas: dictionaries and the stable sort -/

theorem mem_dictInsert {β : Type} {k : String} {v : β} {d : List (String × β)}
    {e : String × β} (h : e ∈ dictInsert k v d) : e = (k, v) ∨ e ∈ d := by
  induction d with
  | nil => simpa [dictInsert] using h
  | cons f rest ih =>
    by_cases hk : f.1 = k
    · rcases (by simpa [dictInsert, hk] using h : e = (k, v) ∨ e ∈ rest) with h' | h'
      · exact Or.inl h'
      · exact Or.inr (List.mem_cons_of_mem _ h')
    · rcases (by simpa [dictInsert, hk] using h : e = f ∨ e ∈ dictInsert k v rest) with h' | h'
      · exact Or.inr (h' ▸ List.mem_cons_self _ _)
      · rcases ih h' with h'' | h''
        · exact Or.inl h''
        · exact Or.inr (List.mem_cons_of_mem _ h'')

theorem dictKeys_nil {β : Type} : dictKeys ([] : List (String × β)) = [] := rfl

theorem dictKeys_cons {β : Type} (f : String × β) (d : List (String × β)) :
    dictKeys (f :: d) = f.1 :: dictKeys d := rfl

theorem dictKeys_append {β : Type} (d d' : List (String × β)) :
    dictKeys (d ++ d') = dictKeys d ++ dictKeys d' := by
  simp [dictKeys]

theorem mem_dictKeys_dictInsert {β : Type} {k k' : String} {v : β}
    {d : List (String × β)} :
    k' ∈ dictKeys (dictInsert k v d) ↔ k' = k ∨ k' ∈ dictKeys d := by
  induction d with
  | nil => simp [dictInsert, dictKeys]
  | cons f rest ih =>
    by_cases hk : f.1 = k
    · rw [show dictInsert k v (f :: rest) = (k, v) :: rest from by
        simp [dictInsert, hk], dictKeys_cons, dictKeys_cons]
      simp only [List.mem_cons]
      rw [hk]
      tauto
    · rw [show dictInsert k v (f :: rest) = f :: dictInsert k v rest from by
        simp [dictInsert, hk], dictKeys_cons, dictKeys_cons]
      simp only [List.mem_cons]
      rw [ih]
      tauto

theorem nodup_dictKeys_dictInsert {β : Type} {k : String} {v : β}
    {d : List (String × β)} (h : (dictKeys d).Nodup) :
    (dictKeys (dictInsert k v d)).Nodup := by
  induction d with
  | nil => simp [dictInsert, dictKeys]
  | cons f rest ih =>
    rw [dictKeys_cons, List.nodup_cons] at h
    by_cases hk : f.1 = k
    · rw [show dictInsert k v (f :: rest) = (k, v) :: rest from by
        simp [dictInsert, hk], dictKeys_cons, List.nodup_cons]
      exact ⟨fun hmem => h.1 (hk ▸ hmem), h.2⟩
    · rw [show dictInsert k v (f :: rest) = f :: dictInsert k v rest from by
        simp [dictInsert, hk], dictKeys_cons, List.nodup_cons]
      refine ⟨fun hmem => ?_, ih h.2⟩
      rcases mem_dictKeys_dictInsert.mp hmem with h' | h'
      · exact hk h'
      · exact h.1 h'

theorem dictInsert_of_not_mem {β : Type} {k : String} {v : β} {d : List (String × β)}
    (h : k ∉ dictKeys d) : dictInsert k v d = d ++ [(k, v)] := by
  induction d with
  | nil => rfl
  | cons f rest ih =>
    rw [dictKeys_cons, List.mem_cons] at h
    push_neg at h
    have hne : ¬f.1 = k := fun hc => h.1 hc.symm
    rw [show dictInsert k v (f :: rest) = f :: dictInsert k v rest from by
      simp [dictInsert, hne], ih h.2, List.cons_append]

theorem insertKeep_perm {α : Type} (r : α → α → Bool) (x : α) (l : List α) :
    (insertKeep r x l).Perm (x :: l) := by
  induction l with
  | nil => exact List.Perm.refl _
  | cons y ys ih =>
    by_cases h : r y x
    · simp only [insertKeep, if_pos h]
      exact (ih.cons y).trans (List.Perm.swap x y ys)
    · simp only [insertKeep, if_neg h]
      exact List.Perm.refl _

theorem stableSort_perm {α : Type} (r : α → α → Bool) (l : List α) :
    (stableSort r l).Perm l := by
  suffices h : ∀ acc : List α,
      (l.foldl (fun acc x => insertKeep r x acc) acc).Perm (acc ++ l) by
    simpa [stableSort] using h []
  induction l with
  | nil => simp
  | cons x xs ih =>
    intro acc
    simp only [List.foldl_cons]
    exact ((ih (insertKeep r x acc)).trans
      (((insertKeep_perm r x acc).append_right xs).trans List.perm_middle.symm))

theorem mem_insertKeep {α : Type} {r : α → α → Bool} {x b : α} {l : List α}
    (h : b ∈ insertKeep r x l) : b = x ∨ b ∈ l := by
  have := (insertKeep_perm r x l).mem_iff.mp h
  simpa using this

theorem insertKeep_pairwise {α : Type} {r : α → α → Bool}
    (htot : ∀ a b, r a b = true ∨ r b a = true)
    (htrans : ∀ a b c, r a b = true → r b c = true → r a c = true)
    (x : α) {l : List α} (h : l.Pairwise (fun a b => r a b = true)) :
    (insertKeep r x l).Pairwise (fun a b => r a b = true) := by
  induction l with
  | nil => simp [insertKeep]
  | cons y ys ih =>
    rw [List.pairwise_cons] at h
    by_cases hr : r y x
    · simp only [insertKeep, if_pos hr]
      rw [List.pairwise_cons]
      refine ⟨fun b hb => ?_, ih h.2⟩
      rcases mem_insertKeep hb with rfl | hb'
      · exact hr
      · exact h.1 b hb'
    · simp only [insertKeep, if_neg hr]
      have hxy : r x y = true := (htot x y).resolve_right (by simpa using hr)
      rw [List.pairwise_cons]
      refine ⟨fun b hb => ?_, List.pairwise_cons.mpr h⟩
      rcases List.mem_cons.mp hb with rfl | hb'
      · exact hxy
      · exact htrans x y b hxy (h.1 b hb')

theorem stableSort_pairwise {α : Type} {r : α → α → Bool}
    (htot : ∀ a b, r a b = true ∨ r b a = true)
    (htrans : ∀ a b c, r a b = true → r b c = true → r a c = true)
    (l : List α) :
    (stableSort r l).Pairwise (fun a b => r a b = true) := by
  suffices h : ∀ acc : List α, acc.Pairwise (fun a b => r a b = true) →
      (l.foldl (fun acc x => insertKeep r x acc) acc).Pairwise (fun a b => r a b = true) by
    exact h [] (List.Pairwise.nil)
  induction l with
  | nil => intro acc hacc; simpa using hacc
  | cons x xs ih =>
    intro acc hacc
    simp only [List.foldl_cons]
    exact ih _ (insertKeep_pairwise htot htrans x hacc)

/-! ### The candidate sort (claim C6) -/

theorem vmOrder_total (a b : PVMRec) : vmOrder a b = true ∨ vmOrder b a = true := by
  simp only [vmOrder, decide_eq_true_eq]
  rcases lt_trichotomy a.mem b.mem with h | h | h
  · exact Or.inr (Or.inl h)
  · rcases le_total a.cpu b.cpu with hc | hc
    · exact Or.inr (Or.inr ⟨h, hc⟩)
    · exact Or.inl (Or.inr ⟨h.symm, hc⟩)
  · exact Or.inl (Or.inl h)

theorem vmOrder_trans (a b c : PVMRec)
    (hab : vmOrder a b = true) (hbc : vmOrder b c = true) : vmOrder a c = true := by
  simp only [vmOrder, decide_eq_true_eq] at hab hbc ⊢
  rcases hab with h1 | ⟨h1, h1c⟩
  · rcases hbc with h2 | ⟨h2, h2c⟩
    · exact Or.inl (h2.trans h1)
    · exact Or.inl (h2 ▸ h1)
  · rcases hbc with h2 | ⟨h2, h2c⟩
    · exact Or.inl (h1 ▸ h2)
    · exact Or.inr ⟨h2.trans h1, h2c.trans h1c⟩

/-- **C6** — The evacuation planner places candidate VMs in descending
order of the pair (current memory, current CPU): the candidate list it
iterates over is pairwise ordered with memory as the primary key and
CPU as the tiebreak, and on the concrete input with candidate VMs of
memory 4096/2048 and CPU 2/4, the VM with memory 4096 comes first
despite its lower CPU value. -/
theorem c6_candidates_sorted_desc_mem_cpu (vms : List PVM) (nd : String) :
    (sorted_candidates vms nd).Pairwise
      (fun a b => b.mem < a.mem ∨ (b.mem = a.mem ∧ b.cpu ≤ a.cpu)) ∧
    (sorted_candidates
        [⟨"vmA", 4, 8, 2048, 4096, "nd", "running"⟩,
         ⟨"vmB", 2, 8, 4096, 8192, "nd", "running"⟩] "nd").map PVMRec.name
      = ["vmB", "vmA"] := by
  constructor
  · exact (stableSort_pairwise vmOrder_total vmOrder_trans
      (candidate_vms vms nd)).imp
      (fun h => by simpa [vmOrder, decide_eq_true_eq] using h)
  · decide

/-! ### Lemmas about the evacuation placement loop -/

/-- The data of a node state that the placement loop never writes to:
key, maximum capacities, resident-VM list. -/
def frameData (st : NodeState) : List (String × ℚ × ℚ × List PVMRec) :=
  st.map (fun e => (e.1, e.2.maxcpu, e.2.maxmem, e.2.vms))

theorem frameData_consumeNode (st : NodeState) (n : String) (vm : PVMRec) :
    frameData (consumeNode st n vm) = frameData st := by
  simp only [frameData, consumeNode, List.map_map]
  congr 1
  funext e
  by_cases h : e.1 = n <;> simp [h]

theorem dictKeys_consumeNode (st : NodeState) (n : String) (vm : PVMRec) :
    dictKeys (consumeNode st n vm) = dictKeys st := by
  simp only [dictKeys, consumeNode, List.map_map]
  congr 1
  funext e
  by_cases h : e.1 = n <;> simp [h]

theorem mem_consumeNode_of_ne {st : NodeState} {n : String} {vm : PVMRec}
    {e : String × NodeRes} (he : e ∈ st) (hne : e.1 ≠ n) :
    e ∈ consumeNode st n vm := by
  simp only [consumeNode, List.mem_map]
  exact ⟨e, he, by simp [hne]⟩

theorem bestAux_some_stays {vm : PVMRec} {l : NodeState} {n : String} {s : ℚ} :
    (bestAux vm l (some n, s)).1 ≠ none := by
  induction l generalizing n s with
  | nil => simp [bestAux]
  | cons e rest ih =>
    simp only [bestAux]
    by_cases hc : node_can_handle_vm e.2 vm ∧ s < combined_score e.2 vm
    · rw [if_pos hc]; exact ih
    · rw [if_neg hc]; exact ih

theorem bestAux_some_mem {vm : PVMRec} {st : NodeState} {acc : Option String × ℚ}
    {n : String} (h : (bestAux vm st acc).1 = some n) :
    n ∈ dictKeys st ∨ acc.1 = some n := by
  induction st generalizing acc with
  | nil => exact Or.inr h
  | cons e rest ih =>
    simp only [bestAux] at h
    by_cases hc : node_can_handle_vm e.2 vm ∧ acc.2 < combined_score e.2 vm
    · rw [if_pos hc] at h
      rcases ih h with h' | h'
      · exact Or.inl (by rw [dictKeys_cons]; exact List.mem_cons_of_mem _ h')
      · have : e.1 = n := by simpa using h'
        exact Or.inl (by rw [dictKeys_cons, this]; exact List.mem_cons_self _ _)
    · rw [if_neg hc] at h
      rcases ih h with h' | h'
      · exact Or.inl (by rw [dictKeys_cons]; exact List.mem_cons_of_mem _ h')
      · exact Or.inr h'

theorem best_fit_some_mem {vm : PVMRec} {st : NodeState} {n : String}
    (h : (best_fit st vm).1 = some n) : n ∈ dictKeys st := by
  rcases bestAux_some_mem h with h' | h'
  · exact h'
  · cases h'

theorem bestAux_none_iff {vm : PVMRec} {l : NodeState} {s : ℚ} :
    (bestAux vm l (none, s)).1 = none ↔
      ∀ e ∈ l, ¬(node_can_handle_vm e.2 vm ∧ s < combined_score e.2 vm) := by
  induction l generalizing s with
  | nil => simp [bestAux]
  | cons e rest ih =>
    simp only [bestAux]
    by_cases hc : node_can_handle_vm e.2 vm ∧ s < combined_score e.2 vm
    · rw [if_pos hc]
      constructor
      · intro h; exact absurd h bestAux_some_stays
      · intro h; exact absurd hc (h e (List.mem_cons_self _ _))
    · rw [if_neg hc]
      rw [ih]
      constructor
      · intro h f hf
        rcases List.mem_cons.mp hf with rfl | hf'
        · exact hc
        · exact h f hf'
      · intro h f hf; exact h f (List.mem_cons_of_mem _ hf)

theorem best_fit_none_iff {vm : PVMRec} {st : NodeState} :
    (best_fit st vm).1 = none ↔
      ∀ e ∈ st, ¬(node_can_handle_vm e.2 vm ∧ 0 < combined_score e.2 vm) :=
  bestAux_none_iff

theorem placeAll_nil (st : NodeState) (plan : List (String × String)) :
    placeAll [] st plan = .ok (plan, st) := rfl

theorem placeAll_cons (vm : PVMRec) (rest : List PVMRec) (st : NodeState)
    (plan : List (String × String)) :
    placeAll (vm :: rest) st plan =
      match (best_fit st vm).1 with
      | some n =>
        if n = "" then .error ⟨vm.name, vm.cpu, vm.mem⟩
        else placeAll rest (consumeNode st n vm) (dictInsert vm.name n plan)
      | none => .error ⟨vm.name, vm.cpu, vm.mem⟩ := rfl

theorem placeAll_cons_some {vm : PVMRec} {st : NodeState} {n : String}
    (rest : List PVMRec) (plan : List (String × String))
    (hb : (best_fit st vm).1 = some n) :
    placeAll (vm :: rest) st plan =
      if n = "" then .error ⟨vm.name, vm.cpu, vm.mem⟩
      else placeAll rest (consumeNode st n vm) (dictInsert vm.name n plan) := by
  rw [placeAll_cons, hb]

theorem placeAll_cons_none {vm : PVMRec} {st : NodeState}
    (rest : List PVMRec) (plan : List (String × String))
    (hb : (best_fit st vm).1 = none) :
    placeAll (vm :: rest) st plan = .error ⟨vm.name, vm.cpu, vm.mem⟩ := by
  rw [placeAll_cons, hb]

theorem placeAll_ok_keys {l : List PVMRec} {st : NodeState}
    {plan plan' : List (String × String)} {st' : NodeState}
    (h : placeAll l st plan = .ok (plan', st')) :
    ∀ k, k ∈ dictKeys plan' ↔ k ∈ dictKeys plan ∨ ∃ vm ∈ l, PVMRec.name vm = k := by
  induction l generalizing st plan with
  | nil =>
    rw [placeAll_nil] at h
    cases h
    simp
  | cons vm rest ih =>
    cases hb : (best_fit st vm).1 with
    | none => rw [placeAll_cons_none rest plan hb] at h; cases h
    | some n =>
      by_cases hn : n = ""
      · rw [placeAll_cons_some rest plan hb, if_pos hn] at h; cases h
      · rw [placeAll_cons_some rest plan hb, if_neg hn] at h
        intro k
        rw [ih h k, mem_dictKeys_dictInsert]
        simp only [List.mem_cons]
        constructor
        · rintro ((h' | h') | ⟨w, hw, hk⟩)
          · exact Or.inr ⟨vm, Or.inl rfl, h'.symm⟩
          · exact Or.inl h'
          · exact Or.inr ⟨w, Or.inr hw, hk⟩
        · rintro (h' | ⟨w, hw | hw, hk⟩)
          · exact Or.inl (Or.inr h')
          · exact Or.inl (Or.inl (by rw [← hk, hw]))
          · exact Or.inr ⟨w, hw, hk⟩

theorem placeAll_nodup_keys {l : List PVMRec} {st : NodeState}
    {plan plan' : List (String × String)} {st' : NodeState}
    (h : placeAll l st plan = .ok (plan', st'))
    (hnd : (dictKeys plan).Nodup) : (dictKeys plan').Nodup := by
  induction l generalizing st plan with
  | nil => rw [placeAll_nil] at h; cases h; exact hnd
  | cons vm rest ih =>
    cases hb : (best_fit st vm).1 with
    | none => rw [placeAll_cons_none rest plan hb] at h; cases h
    | some n =>
      by_cases hn : n = ""
      · rw [placeAll_cons_some rest plan hb, if_pos hn] at h; cases h
      · rw [placeAll_cons_some rest plan hb, if_neg hn] at h
        exact ih h (nodup_dictKeys_dictInsert hnd)

theorem placeAll_values {l : List PVMRec} {st : NodeState}
    {plan plan' : List (String × String)} {st' : NodeState}
    (h : placeAll l st plan = .ok (plan', st')) :
    ∀ e ∈ plan', e ∈ plan ∨ ((∃ vm ∈ l, PVMRec.name vm = e.1) ∧ e.2 ∈ dictKeys st) := by
  induction l generalizing st plan with
  | nil => rw [placeAll_nil] at h; cases h; exact fun e he => Or.inl he
  | cons vm rest ih =>
    cases hb : (best_fit st vm).1 with
    | none => rw [placeAll_cons_none rest plan hb] at h; cases h
    | some n =>
      by_cases hn : n = ""
      · rw [placeAll_cons_some rest plan hb, if_pos hn] at h; cases h
      · rw [placeAll_cons_some rest plan hb, if_neg hn] at h
        intro e he
        rcases ih h e he with h' | ⟨⟨w, hw, hk⟩, hv⟩
        · rcases mem_dictInsert h' with rfl | h''
          · exact Or.inr ⟨⟨vm, List.mem_cons_self _ _, rfl⟩, best_fit_some_mem hb⟩
          · exact Or.inl h''
        · rw [dictKeys_consumeNode] at hv
          exact Or.inr ⟨⟨w, List.mem_cons_of_mem _ hw, hk⟩, hv⟩

theorem placeAll_frame {l : List PVMRec} {st : NodeState}
    {plan plan' : List (String × String)} {st' : NodeState}
    (h : placeAll l st plan = .ok (plan', st')) : frameData st' = frameData st := by
  induction l generalizing st plan with
  | nil => rw [placeAll_nil] at h; cases h; rfl
  | cons vm rest ih =>
    cases hb : (best_fit st vm).1 with
    | none => rw [placeAll_cons_none rest plan hb] at h; cases h
    | some n =>
      by_cases hn : n = ""
      · rw [placeAll_cons_some rest plan hb, if_pos hn] at h; cases h
      · rw [placeAll_cons_some rest plan hb, if_neg hn] at h
        exact (ih h).trans (frameData_consumeNode st n vm)

theorem dictKeys_eq_of_frameData {st st' : NodeState}
    (h : frameData st' = frameData st) : dictKeys st' = dictKeys st := by
  have := congrArg (List.map Prod.fst) h
  simpa [frameData, dictKeys, List.map_map, Function.comp] using this

theorem placeAll_append (l₁ l₂ : List PVMRec) (st : NodeState)
    (plan : List (String × String)) :
    placeAll (l₁ ++ l₂) st plan =
      match placeAll l₁ st plan with
      | .ok (p, s) => placeAll l₂ s p
      | .error e => .error e := by
  induction l₁ generalizing st plan with
  | nil => simp [placeAll]
  | cons vm rest ih =>
    simp only [List.cons_append, placeAll]
    cases (best_fit st vm).1 with
    | none => rfl
    | some n =>
      by_cases hn : n = "" <;> simp [hn, ih]

theorem mem_dictKeys_foldl_dictInsert {β γ : Type} (key : γ → String) (val : γ → β)
    (l : List γ) (init : List (String × β)) (k : String) :
    k ∈ dictKeys (l.foldl (fun acc n => dictInsert (key n) (val n) acc) init) ↔
      k ∈ dictKeys init ∨ ∃ n ∈ l, key n = k := by
  induction l generalizing init with
  | nil => simp
  | cons x xs ih =>
    simp only [List.foldl_cons]
    rw [ih, mem_dictKeys_dictInsert]
    simp only [List.mem_cons]
    constructor
    · rintro ((h | h) | ⟨n, hn, hk⟩)
      · exact Or.inr ⟨x, Or.inl rfl, h.symm⟩
      · exact Or.inl h
      · exact Or.inr ⟨n, Or.inr hn, hk⟩
    · rintro (h | ⟨n, hn | hn, hk⟩)
      · exact Or.inl (Or.inr h)
      · exact Or.inl (Or.inl (hn ▸ hk.symm))
      · exact Or.inr ⟨n, hn, hk⟩

theorem mem_foldl_dictInsert {β γ : Type} (key : γ → String) (val : γ → β)
    {l : List γ} {init : List (String × β)} {e : String × β}
    (he : e ∈ l.foldl (fun acc n => dictInsert (key n) (val n) acc) init) :
    e ∈ init ∨ ∃ n ∈ l, e = (key n, val n) := by
  induction l generalizing init with
  | nil => exact Or.inl he
  | cons x xs ih =>
    simp only [List.foldl_cons] at he
    rcases ih he with h | ⟨n, hn, hk⟩
    · rcases mem_dictInsert h with h' | h'
      · exact Or.inr ⟨x, List.mem_cons_self _ _, h'⟩
      · exact Or.inl h'
    · exact Or.inr ⟨n, List.mem_cons_of_mem _ hn, hk⟩

theorem mem_dictKeys_init_nodes {vms : List PVM} {nodes : List PNode} {nd k : String} :
    k ∈ dictKeys (init_nodes vms nodes nd) ↔
      ∃ node ∈ nodes, node.node ≠ nd ∧ node.node = k := by
  unfold init_nodes
  rw [mem_dictKeys_foldl_dictInsert]
  simp only [dictKeys_nil, List.not_mem_nil, false_or, List.mem_filter,
    decide_eq_true_eq]
  tauto

theorem mem_init_nodes {vms : List PVM} {nodes : List PNode} {nd : String}
    {e : String × NodeRes} (he : e ∈ init_nodes vms nodes nd) :
    ∃ node ∈ nodes, node.node ≠ nd ∧ e.1 = node.node ∧
      e.2.maxcpu = node.maxcpu ∧ e.2.maxmem = node.maxmem := by
  unfold init_nodes at he
  rcases mem_foldl_dictInsert _ _ he with h | ⟨n, hn, hk⟩
  · cases h
  · rcases List.mem_filter.mp hn with ⟨hmem, hcond⟩
    exact ⟨n, hmem, by simpa using hcond, by rw [hk], by rw [hk], by rw [hk]⟩

/-- **C5** — On success, the keys of the evacuation plan are exactly
the names of the VMs that sit on `node_to_upgrade` with a status other
than `"stopped"`; and when every VM on that node is stopped (in
particular when none resides there at all), the planner succeeds with
an empty plan. -/
theorem c5_success_keys_are_candidates (vms : List PVM) (nodes : List PNode) (nd : String) :
    (∀ p, migration_plan vms nodes nd = .ok p →
      ∀ k, k ∈ dictKeys p ↔
        ∃ vm ∈ vms, vm.node = nd ∧ vm.status ≠ "stopped" ∧ vm.name = k) ∧
    ((∀ vm ∈ vms, vm.node = nd → vm.status = "stopped") →
      migration_plan vms nodes nd = .ok []) := by
  have hname : ∀ k, (∃ w ∈ sorted_candidates vms nd, PVMRec.name w = k) ↔
      (∃ vm ∈ vms, vm.node = nd ∧ vm.status ≠ "stopped" ∧ vm.name = k) := by
    intro k
    constructor
    · rintro ⟨w, hw, rfl⟩
      have hw' : w ∈ candidate_vms vms nd :=
        (stableSort_perm vmOrder (candidate_vms vms nd)).mem_iff.mp hw
      rcases List.mem_map.mp hw' with ⟨vm, hvm, rfl⟩
      rcases List.mem_filter.mp hvm with ⟨hmem, hcond⟩
      simp only [Bool.and_eq_true, decide_eq_true_eq] at hcond
      exact ⟨vm, hmem, hcond.1, by simpa using hcond.2, rfl⟩
    · rintro ⟨vm, hvm, hnode, hstat, rfl⟩
      refine ⟨vm_result_to_dict vm, ?_, rfl⟩
      refine (stableSort_perm vmOrder (candidate_vms vms nd)).mem_iff.mpr ?_
      exact List.mem_map_of_mem _ (List.mem_filter.mpr ⟨hvm, by
        simp only [Bool.and_eq_true, decide_eq_true_eq]
        exact ⟨hnode, by simpa using hstat⟩⟩)
  constructor
  · intro p hp k
    by_cases hall : ∀ vm ∈ vms, vm.node ≠ nd
    · rw [migration_plan, if_pos hall] at hp
      cases hp
      simp only [dictKeys_nil, List.not_mem_nil, false_iff]
      rintro ⟨vm, hvm, hnode, -, -⟩
      exact hall vm hvm hnode
    · rw [migration_plan, if_neg hall] at hp
      cases hres : placeAll (sorted_candidates vms nd) (init_nodes vms nodes nd) [] with
      | error e => rw [hres] at hp; cases hp
      | ok pr =>
        obtain ⟨p', st'⟩ := pr
        rw [hres] at hp
        simp only [Except.map] at hp
        cases hp
        rw [placeAll_ok_keys hres k]
        simp only [dictKeys_nil, List.not_mem_nil, false_or]
        exact hname k
  · intro hstopped
    by_cases hall : ∀ vm ∈ vms, vm.node ≠ nd
    · rw [migration_plan, if_pos hall]
    · rw [migration_plan, if_neg hall]
      have hc : candidate_vms vms nd = [] := by
        unfold candidate_vms
        rw [List.map_eq_nil_iff, List.filter_eq_nil_iff]
        intro vm hvm
        simp only [Bool.and_eq_true, decide_eq_true_eq, not_and]
        intro hnode
        simp [hstopped vm hvm hnode]
      have hs : sorted_candidates vms nd = [] := by
        rw [sorted_candidates, hc]; rfl
      rw [hs, placeAll_nil]
      rfl

/-- Witness for C5 at a concrete input: a node holding only a stopped
VM yields the empty plan without failing. -/
theorem c5_witness :
    migration_plan [⟨"s1", 2, 4, 2048, 4096, "nd", "stopped"⟩]
      [⟨"nd", 2, 16, 2048, 16384⟩, ⟨"other", 0, 8, 0, 8192⟩] "nd" = .ok [] :=
  (c5_success_keys_are_candidates _ _ _).2 (by decide)

theorem oc_map_eq_of_frameData {st st' : NodeState} (h : frameData st' = frameData st) :
    st'.map (fun e => (e.1, calculate_overcommitment e.2)) =
      st.map (fun e => (e.1, calculate_overcommitment e.2)) := by
  have := congrArg (List.map (fun d : String × ℚ × ℚ × List PVMRec =>
    (d.1, ((d.2.2.2.map PVMRec.maxcpu).sum / d.2.1,
           (d.2.2.2.map PVMRec.maxmem).sum / d.2.2.1)))) h
  simpa [frameData, List.map_map, Function.comp, calculate_overcommitment] using this

/-- **C10** — During one evacuation run, the assignment step rewrites
only the chosen node's `available_cpu`/`available_mem`: every node's
key, `maxcpu`, `maxmem` and resident-VM list survive each step and the
whole run unchanged (any other node's entry is untouched entirely), so
every node's overcommitment data stays what it was in the initial
state. -/
theorem c10_placement_frame (vms : List PVM) (nodes : List PNode) (nd : String) :
    (∀ (st : NodeState) (n : String) (vm : PVMRec),
      frameData (consumeNode st n vm) = frameData st ∧
        ∀ e ∈ st, e.1 ≠ n → e ∈ consumeNode st n vm) ∧
    (∀ (pre : List PVMRec) (p' : List (String × String)) (st' : NodeState),
      placeAll pre (init_nodes vms nodes nd) [] = .ok (p', st') →
        frameData st' = frameData (init_nodes vms nodes nd) ∧
          st'.map (fun e => (e.1, calculate_overcommitment e.2)) =
            (init_nodes vms nodes nd).map (fun e => (e.1, calculate_overcommitment e.2))) := by
  constructor
  · intro st n vm
    exact ⟨frameData_consumeNode st n vm, fun e he hne => mem_consumeNode_of_ne he hne⟩
  · intro pre p' st' h
    have hframe := placeAll_frame h
    exact ⟨hframe, oc_map_eq_of_frameData hframe⟩

/-- Witness for C10 at a concrete input (the empty placement run is a
successful run of the loop, checked definitionally). -/
theorem c10_witness :
    frameData ([("B", ⟨8, 8192, 16, 16384, []⟩)] : NodeState) =
      frameData (init_nodes [] [⟨"nd", 2, 16, 2048, 16384⟩, ⟨"B", 8, 16, 8192, 16384⟩] "nd") :=
  ((c10_placement_frame [] [⟨"nd", 2, 16, 2048, 16384⟩, ⟨"B", 8, 16, 8192, 16384⟩] "nd").2
    [] [] _ rfl).1

/-- **C9** — If every node other than `node_to_upgrade` has strictly
positive maximum CPU and maximum memory, then every division performed
during scoring has a strictly positive divisor: the epsilon-floored
per-VM divisors unconditionally, and the `maxcpu`/`maxmem` divisors of
`_calculate_overcommitment` on every node state reachable in the run
(so the division-by-zero branch is unreachable). -/
theorem c9_scoring_divisors_positive (vms : List PVM) (nodes : List PNode) (nd : String)
    (hpos : ∀ node ∈ nodes, node.node ≠ nd → 0 < node.maxcpu ∧ 0 < node.maxmem) :
    (∀ (pre : List PVMRec) (p' : List (String × String)) (st' : NodeState),
      placeAll pre (init_nodes vms nodes nd) [] = .ok (p', st') →
        ∀ e ∈ st', 0 < e.2.maxcpu ∧ 0 < e.2.maxmem) ∧
    (∀ vm : PVMRec, 0 < max vm.cpu (1 / 10000) ∧ 0 < max vm.mem 1) := by
  constructor
  · intro pre p' st' h e he
    have hframe := placeAll_frame h
    have hmem : (e.1, e.2.maxcpu, e.2.maxmem, e.2.vms) ∈ frameData st' :=
      List.mem_map_of_mem _ he
    rw [hframe] at hmem
    obtain ⟨f, hf, hft⟩ := List.mem_map.mp hmem
    obtain ⟨node, hnode, hne, -, hcpu, hmm⟩ := mem_init_nodes hf
    have h1 : f.2.maxcpu = e.2.maxcpu := congrArg (fun t => t.2.1) hft
    have h2 : f.2.maxmem = e.2.maxmem := congrArg (fun t => t.2.2.1) hft
    rw [← h1, ← h2, hcpu, hmm]
    exact hpos node hnode hne
  · intro vm
    constructor
    · exact lt_of_lt_of_le (by norm_num) (le_max_right vm.cpu (1 / 10000))
    · exact lt_of_lt_of_le (by norm_num) (le_max_right vm.mem 1)

/-- Witness for C9 at a concrete input. -/
theorem c9_witness :
    0 < max (2 : ℚ) (1 / 10000) ∧ 0 < max (2048 : ℚ) 1 :=
  (c9_scoring_divisors_positive [] [⟨"nd", 2, 16, 2048, 16384⟩, ⟨"B", 8, 16, 8192, 16384⟩]
    "nd" (by decide)).2 ⟨"v", 2, 4, 2048, 4096, "nd"⟩

theorem bestAux_cons (vm : PVMRec) (e : String × NodeRes) (rest : NodeState)
    (b : Option String) (s₀ : ℚ) :
    bestAux vm (e :: rest) (b, s₀) =
      if node_can_handle_vm e.2 vm ∧ s₀ < combined_score e.2 vm
      then bestAux vm rest (some e.1, combined_score e.2 vm)
      else bestAux vm rest (b, s₀) := rfl

theorem bestAux_eq_some_iff {vm : PVMRec} {l : NodeState} {b : Option String} {s₀ : ℚ}
    {n : String} {s : ℚ} :
    bestAux vm l (b, s₀) = (some n, s) ↔
      (b = some n ∧ s = s₀ ∧
        ∀ z ∈ l, node_can_handle_vm z.2 vm → combined_score z.2 vm ≤ s₀) ∨
      (∃ l₁ x l₂, l = l₁ ++ x :: l₂ ∧ node_can_handle_vm x.2 vm ∧
        x.1 = n ∧ combined_score x.2 vm = s ∧ s₀ < s ∧
        (∀ y ∈ l₁, node_can_handle_vm y.2 vm → combined_score y.2 vm < s) ∧
        (∀ z ∈ l₂, node_can_handle_vm z.2 vm → combined_score z.2 vm ≤ s)) := by
  induction l generalizing b s₀ with
  | nil =>
    constructor
    · intro h
      have h1 : b = some n := congrArg Prod.fst h
      have h2 : s₀ = s := congrArg Prod.snd h
      exact Or.inl ⟨h1, h2.symm, fun z hz => absurd hz (List.not_mem_nil z)⟩
    · rintro (⟨h1, h2, -⟩ | ⟨l₁, x, l₂, hdec, -⟩)
      · rw [show bestAux vm [] (b, s₀) = (b, s₀) from rfl, h1, h2]
      · exact absurd hdec (by simp)
  | cons e rest ih =>
    rw [bestAux_cons]
    by_cases hcond : node_can_handle_vm e.2 vm ∧ s₀ < combined_score e.2 vm
    · rw [if_pos hcond, ih]
      constructor
      · rintro (⟨h1, h2, h3⟩ | ⟨l₁, x, l₂, hdec, hfx, hxn, hxs, hlt, hpre, hpost⟩)
        · have hn' : e.1 = n := by simpa using h1
          refine Or.inr ⟨[], e, rest, rfl, hcond.1, hn', h2.symm, ?_, by simp, ?_⟩
          · rw [h2]; exact hcond.2
          · rw [h2]; exact h3
        · exact Or.inr ⟨e :: l₁, x, l₂, by rw [hdec, List.cons_append], hfx, hxn, hxs,
            lt_trans hcond.2 hlt,
            (by
              intro y hy
              rcases List.mem_cons.mp hy with rfl | hy'
              · intro _; exact hlt
              · exact hpre y hy'),
            hpost⟩
      · rintro (⟨-, -, h3⟩ | ⟨l₁, x, l₂, hdec, hfx, hxn, hxs, hlt, hpre, hpost⟩)
        · exact absurd (h3 e (List.mem_cons_self _ _) hcond.1) (not_le.mpr hcond.2)
        · cases l₁ with
          | nil =>
            simp only [List.nil_append, List.cons.injEq] at hdec
            obtain ⟨rfl, rfl⟩ := hdec
            refine Or.inl ⟨by rw [hxn], hxs.symm, ?_⟩
            rw [hxs]; exact hpost
          | cons y l₁' =>
            simp only [List.cons_append, List.cons.injEq] at hdec
            obtain ⟨rfl, rfl⟩ := hdec
            refine Or.inr ⟨l₁', x, l₂, rfl, hfx, hxn, hxs, ?_,
              fun y' hy' => hpre y' (List.mem_cons_of_mem _ hy'), hpost⟩
            exact hpre e (List.mem_cons_self _ _) hcond.1
    · rw [if_neg hcond, ih]
      have hecond : node_can_handle_vm e.2 vm → combined_score e.2 vm ≤ s₀ := by
        intro hf
        by_contra hgt
        exact hcond ⟨hf, lt_of_not_le hgt⟩
      constructor
      · rintro (⟨h1, h2, h3⟩ | ⟨l₁, x, l₂, hdec, hfx, hxn, hxs, hlt, hpre, hpost⟩)
        · refine Or.inl ⟨h1, h2, ?_⟩
          intro z hz
          rcases List.mem_cons.mp hz with rfl | hz'
          · exact hecond
          · exact h3 z hz'
        · exact Or.inr ⟨e :: l₁, x, l₂, by rw [hdec, List.cons_append], hfx, hxn, hxs, hlt,
            (by
              intro y hy
              rcases List.mem_cons.mp hy with rfl | hy'
              · intro hf; exact lt_of_le_of_lt (hecond hf) hlt
              · exact hpre y hy'),
            hpost⟩
      · rintro (⟨h1, h2, h3⟩ | ⟨l₁, x, l₂, hdec, hfx, hxn, hxs, hlt, hpre, hpost⟩)
        · exact Or.inl ⟨h1, h2, fun z hz => h3 z (List.mem_cons_of_mem _ hz)⟩
        · cases l₁ with
          | nil =>
            simp only [List.nil_append, List.cons.injEq] at hdec
            obtain ⟨rfl, rfl⟩ := hdec
            exact absurd ⟨hfx, hxs ▸ hlt⟩ hcond
          | cons y l₁' =>
            simp only [List.cons_append, List.cons.injEq] at hdec
            obtain ⟨rfl, rfl⟩ := hdec
            exact Or.inr ⟨l₁', x, l₂, rfl, hfx, hxn, hxs, hlt,
              fun y' hy' => hpre y' (List.mem_cons_of_mem _ hy'), hpost⟩

/-- The characterisation specialised to the loop's actual start value
`(None, 0)`: the scan returns node `n` with score `s` exactly when some
feasible entry of the state carries name `n` and score `s`, the score
is strictly positive, every feasible entry before it scores strictly
less, and every feasible entry after it scores at most `s` (so ties
keep the earliest-found node). -/
theorem best_fit_eq_some_iff {vm : PVMRec} {st : NodeState} {n : String} {s : ℚ} :
    best_fit st vm = (some n, s) ↔
      ∃ l₁ x l₂, st = l₁ ++ x :: l₂ ∧ node_can_handle_vm x.2 vm ∧
        x.1 = n ∧ combined_score x.2 vm = s ∧ 0 < s ∧
        (∀ y ∈ l₁, node_can_handle_vm y.2 vm → combined_score y.2 vm < s) ∧
        (∀ z ∈ l₂, node_can_handle_vm z.2 vm → combined_score z.2 vm ≤ s) := by
  rw [best_fit, bestAux_eq_some_iff]
  constructor
  · rintro (⟨h, -⟩ | h)
    · cases h
    · exact h
  · exact fun h => Or.inr h

/-- **C4** — For each candidate VM the planner assigns the feasible
node with the strictly highest combined score: the scan returns node
`n` exactly when a feasible entry named `n` has positive combined
score, strictly above every feasible entry before it and at least
every feasible entry after it (ties keep the earliest-found node); and
concretely, for a VM needing 2 CPU / 2048 memory, node `B` with
8 CPU / 8192 memory available is chosen over the otherwise identical
node `A` with 2 CPU / 2048 memory available. -/
theorem c4_assigns_highest_scoring_feasible_node :
    (∀ (st : NodeState) (vm : PVMRec) (n : String) (s : ℚ),
      best_fit st vm = (some n, s) ↔
        ∃ l₁ x l₂, st = l₁ ++ x :: l₂ ∧ node_can_handle_vm x.2 vm ∧
          x.1 = n ∧ combined_score x.2 vm = s ∧ 0 < s ∧
          (∀ y ∈ l₁, node_can_handle_vm y.2 vm → combined_score y.2 vm < s) ∧
          (∀ z ∈ l₂, node_can_handle_vm z.2 vm → combined_score z.2 vm ≤ s)) ∧
    migration_plan [⟨"vm1", 2, 4, 2048, 4096, "nd", "running"⟩]
      [⟨"nd", 2, 16, 2048, 16384⟩, ⟨"A", 14, 16, 14336, 16384⟩,
       ⟨"B", 8, 16, 8192, 16384⟩] "nd" = .ok [("vm1", "B")] := by
  constructor
  · intro st vm n s
    exact best_fit_eq_some_iff
  · have hs : sorted_candidates [⟨"vm1", 2, 4, 2048, 4096, "nd", "running"⟩] "nd"
        = [⟨"vm1", 2, 4, 2048, 4096, "nd"⟩] := by decide
    have hinit : init_nodes [⟨"vm1", 2, 4, 2048, 4096, "nd", "running"⟩]
        [⟨"nd", 2, 16, 2048, 16384⟩, ⟨"A", 14, 16, 14336, 16384⟩,
         ⟨"B", 8, 16, 8192, 16384⟩] "nd"
        = [("A", ⟨2, 2048, 16, 16384, []⟩), ("B", ⟨8, 8192, 16, 16384, []⟩)] := by
      simp +decide [init_nodes, candidate_vms, vm_result_to_dict, dictInsert]
      norm_num
    have hA : combined_score ⟨2, 2048, 16, 16384, []⟩ ⟨"vm1", 2, 4, 2048, 4096, "nd"⟩
        = 2 := by
      norm_num [combined_score, calculate_overcommitment, cpu_weight, mem_weight,
        available_resources_weight, overcommitment_weight, max_def]
    have hB : combined_score ⟨8, 8192, 16, 16384, []⟩ ⟨"vm1", 2, 4, 2048, 4096, "nd"⟩
        = 8 := by
      norm_num [combined_score, calculate_overcommitment, cpu_weight, mem_weight,
        available_resources_weight, overcommitment_weight, max_def]
    have hbest : best_fit
        [("A", ⟨2, 2048, 16, 16384, []⟩), ("B", ⟨8, 8192, 16, 16384, []⟩)]
        ⟨"vm1", 2, 4, 2048, 4096, "nd"⟩ = (some "B", 8) := by
      rw [best_fit, bestAux_cons, if_pos (by
        constructor
        · refine ⟨by norm_num, by norm_num, by norm_num, by norm_num⟩
        · rw [hA]; norm_num)]
      rw [hA, bestAux_cons, if_pos (by
        constructor
        · refine ⟨by norm_num, by norm_num, by norm_num, by norm_num⟩
        · rw [hB]; norm_num)]
      rw [hB]
      rfl
    rw [migration_plan, if_neg (by decide), hs, hinit,
      placeAll_cons_some [] [] (by rw [hbest]), if_neg (by decide), placeAll_nil]
    rfl

theorem placeAll_error_decomp {l : List PVMRec} {st : NodeState}
    {plan : List (String × String)} {e : PlanError}
    (h : placeAll l st plan = .error e) :
    ∃ l₁ vm l₂ p' st', l = l₁ ++ vm :: l₂ ∧
      placeAll l₁ st plan = .ok (p', st') ∧
      ((best_fit st' vm).1 = none ∨ (best_fit st' vm).1 = some "") ∧
      e = ⟨vm.name, vm.cpu, vm.mem⟩ := by
  induction l generalizing st plan with
  | nil => rw [placeAll_nil] at h; cases h
  | cons vm rest ih =>
    cases hb : (best_fit st vm).1 with
    | none =>
      rw [placeAll_cons_none rest plan hb] at h
      cases h
      exact ⟨[], vm, rest, plan, st, rfl, placeAll_nil st plan, Or.inl hb, rfl⟩
    | some n =>
      by_cases hn : n = ""
      · rw [placeAll_cons_some rest plan hb, if_pos hn] at h
        cases h
        exact ⟨[], vm, rest, plan, st, rfl, placeAll_nil st plan, Or.inr (hn ▸ hb), rfl⟩
      · rw [placeAll_cons_some rest plan hb, if_neg hn] at h
        obtain ⟨l₁, w, l₂, p', st', hdec, hok, hfail, he⟩ := ih h
        exact ⟨vm :: l₁, w, l₂, p', st', by rw [hdec, List.cons_append],
          by rw [placeAll_cons_some l₁ plan hb, if_neg hn]; exact hok, hfail, he⟩

theorem placeAll_error_of_decomp {l₁ : List PVMRec} {vm : PVMRec} (l₂ : List PVMRec)
    {st st' : NodeState} {plan p' : List (String × String)}
    (hok : placeAll l₁ st plan = .ok (p', st'))
    (hfail : (best_fit st' vm).1 = none ∨ (best_fit st' vm).1 = some "") :
    placeAll (l₁ ++ vm :: l₂) st plan = .error ⟨vm.name, vm.cpu, vm.mem⟩ := by
  rw [placeAll_append, hok]
  show placeAll (vm :: l₂) st' p' = _
  rcases hfail with hb | hb
  · exact placeAll_cons_none l₂ p' hb
  · rw [placeAll_cons_some l₂ p' hb, if_pos rfl]

theorem candidate_vms_node {vms : List PVM} {nd : String} {w : PVMRec}
    (hw : w ∈ candidate_vms vms nd) :
    ∃ vm₀ ∈ vms, vm₀.node = nd ∧ vm₀.status ≠ "stopped" ∧ w = vm_result_to_dict vm₀ := by
  rcases List.mem_map.mp hw with ⟨vm₀, hvm₀, rfl⟩
  rcases List.mem_filter.mp hvm₀ with ⟨hmem, hcond⟩
  simp only [Bool.and_eq_true, decide_eq_true_eq] at hcond
  exact ⟨vm₀, hmem, hcond.1, by simpa using hcond.2, rfl⟩

/-- **C3** (amended: no node may carry the empty-string identifier,
which Python truthiness otherwise turns into a spurious failure) — The
evacuation planner fails exactly when some candidate VM, processed in
the sorted order, reaches a state in which no remaining node passes
the feasibility filter with a strictly positive combined score; the
raised error carries that VM's name and its current CPU and memory
requirement (and, the return type being `Except`, no partial plan
reaches the caller on failure). -/
theorem c3_fails_iff_some_candidate_unplaceable (vms : List PVM) (nodes : List PNode)
    (nd : String) (hne : ∀ node ∈ nodes, node.node ≠ "") :
    ((∃ e, migration_plan vms nodes nd = .error e) ↔
      ∃ l₁ vm l₂, sorted_candidates vms nd = l₁ ++ vm :: l₂ ∧
        ∃ p' st', placeAll l₁ (init_nodes vms nodes nd) [] = .ok (p', st') ∧
          ∀ f ∈ st', ¬(node_can_handle_vm f.2 vm ∧ 0 < combined_score f.2 vm)) ∧
    (∀ e, migration_plan vms nodes nd = .error e →
      ∃ l₁ vm l₂, sorted_candidates vms nd = l₁ ++ vm :: l₂ ∧
        e = ⟨vm.name, vm.cpu, vm.mem⟩ ∧
        ∃ p' st', placeAll l₁ (init_nodes vms nodes nd) [] = .ok (p', st') ∧
          ∀ f ∈ st', ¬(node_can_handle_vm f.2 vm ∧ 0 < combined_score f.2 vm)) := by
  have hmain : ∀ e, migration_plan vms nodes nd = .error e →
      ∃ l₁ vm l₂, sorted_candidates vms nd = l₁ ++ vm :: l₂ ∧
        e = ⟨vm.name, vm.cpu, vm.mem⟩ ∧
        ∃ p' st', placeAll l₁ (init_nodes vms nodes nd) [] = .ok (p', st') ∧
          ∀ f ∈ st', ¬(node_can_handle_vm f.2 vm ∧ 0 < combined_score f.2 vm) := by
    intro e he
    by_cases hall : ∀ vm ∈ vms, vm.node ≠ nd
    · rw [migration_plan, if_pos hall] at he; cases he
    · rw [migration_plan, if_neg hall] at he
      cases hres : placeAll (sorted_candidates vms nd) (init_nodes vms nodes nd) [] with
      | ok pr => rw [hres] at he; cases he
      | error e' =>
        rw [hres] at he
        cases he
        obtain ⟨l₁, vm, l₂, p', st', hdec, hok, hfail, hpayload⟩ :=
          placeAll_error_decomp hres
        refine ⟨l₁, vm, l₂, hdec, hpayload, p', st', hok, ?_⟩
        rcases hfail with hb | hb
        · exact best_fit_none_iff.mp hb
        · exfalso
          have hmem : "" ∈ dictKeys st' := best_fit_some_mem hb
          rw [dictKeys_eq_of_frameData (placeAll_frame hok)] at hmem
          obtain ⟨node, hnode, -, hname⟩ := mem_dictKeys_init_nodes.mp hmem
          exact hne node hnode hname
  constructor
  · constructor
    · rintro ⟨e, he⟩
      obtain ⟨l₁, vm, l₂, hdec, -, p', st', hok, hforall⟩ := hmain e he
      exact ⟨l₁, vm, l₂, hdec, p', st', hok, hforall⟩
    · rintro ⟨l₁, vm, l₂, hdec, p', st', hok, hforall⟩
      have hguard : ¬∀ w ∈ vms, w.node ≠ nd := by
        have hvm : vm ∈ candidate_vms vms nd := by
          refine (stableSort_perm vmOrder (candidate_vms vms nd)).mem_iff.mp ?_
          rw [show stableSort vmOrder (candidate_vms vms nd) = sorted_candidates vms nd
            from rfl, hdec]
          exact List.mem_append_right _ (List.mem_cons_self _ _)
        obtain ⟨vm₀, hvm₀, hnode, -, -⟩ := candidate_vms_node hvm
        intro hcontra
        exact hcontra vm₀ hvm₀ hnode
      refine ⟨⟨vm.name, vm.cpu, vm.mem⟩, ?_⟩
      rw [migration_plan, if_neg hguard, hdec,
        placeAll_error_of_decomp l₂ hok (Or.inl (best_fit_none_iff.mpr hforall))]
      rfl
  · exact hmain

/-- Counterexample to C3 as frozen: with a (feasible, positive-score)
node whose identifier is the empty string, the planner still fails —
Python's `if best_fit_node:` treats the empty string as falsy — so
"fails only if no feasible positive-score node exists" is violated. -/
theorem c3_counterexample :
    migration_plan [⟨"vm1", 2, 4, 2048, 4096, "nd", "running"⟩]
        [⟨"nd", 2, 16, 2048, 16384⟩, ⟨"", 0, 64, 0, 65536⟩] "nd"
      = .error ⟨"vm1", 2, 2048⟩ ∧
    ∃ f ∈ init_nodes [⟨"vm1", 2, 4, 2048, 4096, "nd", "running"⟩]
        [⟨"nd", 2, 16, 2048, 16384⟩, ⟨"", 0, 64, 0, 65536⟩] "nd",
      node_can_handle_vm f.2 ⟨"vm1", 2, 4, 2048, 4096, "nd"⟩ ∧
        0 < combined_score f.2 ⟨"vm1", 2, 4, 2048, 4096, "nd"⟩ := by
  have hinit : init_nodes [⟨"vm1", 2, 4, 2048, 4096, "nd", "running"⟩]
      [⟨"nd", 2, 16, 2048, 16384⟩, ⟨"", 0, 64, 0, 65536⟩] "nd"
      = [("", ⟨64, 65536, 64, 65536, []⟩)] := by
    simp +decide [init_nodes, candidate_vms, vm_result_to_dict, dictInsert] <;> norm_num
  have hscore : combined_score ⟨64, 65536, 64, 65536, []⟩ ⟨"vm1", 2, 4, 2048, 4096, "nd"⟩
      = 64 := by
    norm_num [combined_score, calculate_overcommitment, cpu_weight, mem_weight,
      available_resources_weight, overcommitment_weight, max_def]
  have hhandle : node_can_handle_vm (⟨64, 65536, 64, 65536, []⟩ : NodeRes)
      ⟨"vm1", 2, 4, 2048, 4096, "nd"⟩ := by
    refine ⟨by norm_num, by norm_num, by norm_num, by norm_num⟩
  have hs : sorted_candidates [⟨"vm1", 2, 4, 2048, 4096, "nd", "running"⟩] "nd"
      = [⟨"vm1", 2, 4, 2048, 4096, "nd"⟩] := by decide
  have hbest : best_fit [("", ⟨64, 65536, 64, 65536, []⟩)]
      ⟨"vm1", 2, 4, 2048, 4096, "nd"⟩ = (some "", 64) := by
    rw [best_fit, bestAux_cons, if_pos (by
      constructor
      · exact hhandle
      · rw [hscore]; norm_num)]
    rw [hscore]
    rfl
  constructor
  · rw [migration_plan, if_neg (by decide), hs, hinit,
      placeAll_cons_some [] [] (by rw [hbest]), if_pos rfl]
    rfl
  · rw [hinit]
    refine ⟨("", ⟨64, 65536, 64, 65536, []⟩), List.mem_cons_self _ _, hhandle, ?_⟩
    rw [hscore]
    norm_num

/-- Witness for (amended) C3 at a concrete input: a VM whose CPU need
exceeds every node's capacity makes the planner fail, and the failure
decomposes as the theorem states. -/
theorem c3_witness :
    ∃ l₁ vm l₂, sorted_candidates [⟨"huge", 100, 200, 100000, 200000, "nd", "running"⟩]
        "nd" = l₁ ++ vm :: l₂ ∧
      PlanError.mk "huge" 100 100000 = ⟨vm.name, vm.cpu, vm.mem⟩ ∧
      ∃ p' st', placeAll l₁ (init_nodes [⟨"huge", 100, 200, 100000, 200000, "nd", "running"⟩]
          [⟨"nd", 2, 16, 2048, 16384⟩, ⟨"A", 0, 8, 0, 8192⟩] "nd") [] = .ok (p', st') ∧
        ∀ f ∈ st', ¬(node_can_handle_vm f.2 vm ∧ 0 < combined_score f.2 vm) := by
  refine (c3_fails_iff_some_candidate_unplaceable
    [⟨"huge", 100, 200, 100000, 200000, "nd", "running"⟩]
    [⟨"nd", 2, 16, 2048, 16384⟩, ⟨"A", 0, 8, 0, 8192⟩] "nd" (by decide)).2
    ⟨"huge", 100, 100000⟩ ?_
  have hinit : init_nodes [⟨"huge", 100, 200, 100000, 200000, "nd", "running"⟩]
      [⟨"nd", 2, 16, 2048, 16384⟩, ⟨"A", 0, 8, 0, 8192⟩] "nd"
      = [("A", ⟨8, 8192, 8, 8192, []⟩)] := by
    simp +decide [init_nodes, candidate_vms, vm_result_to_dict, dictInsert] <;> norm_num
  have hs : sorted_candidates [⟨"huge", 100, 200, 100000, 200000, "nd", "running"⟩] "nd"
      = [⟨"huge", 100, 200, 100000, 200000, "nd"⟩] := by decide
  have hbest : (best_fit [("A", ⟨8, 8192, 8, 8192, []⟩)]
      ⟨"huge", 100, 200, 100000, 200000, "nd"⟩).1 = none := by
    rw [best_fit, bestAux_cons, if_neg (by
      rintro ⟨⟨hcpu, -⟩, -⟩
      norm_num at hcpu)]
    rfl
  rw [migration_plan, if_neg (by decide), hs, hinit, placeAll_cons_none [] [] hbest]
  rfl

/-! ### Lemmas about the rebalance planner -/

/-- Number of plan entries naming `n` as source node. -/
def outflow (plan : LBPlan) (n : String) : Nat :=
  (plan.filter (fun e => decide (e.2.source_node = n))).length

/-- Number of plan entries naming `n` as target node. -/
def inflow (plan : LBPlan) (n : String) : Nat :=
  (plan.filter (fun e => decide (e.2.target_node = n))).length

theorem firstKeys_subset {l seen : List String} {y : String}
    (hy : y ∈ firstKeys l seen) : y ∈ l := by
  induction l generalizing seen with
  | nil => cases hy
  | cons x xs ih =>
    by_cases hx : x ∈ seen
    · rw [show firstKeys (x :: xs) seen = firstKeys xs seen from by
        simp [firstKeys, hx]] at hy
      exact List.mem_cons_of_mem _ (ih hy)
    · rw [show firstKeys (x :: xs) seen = x :: firstKeys xs (x :: seen) from by
        simp [firstKeys, hx]] at hy
      rcases List.mem_cons.mp hy with rfl | hy'
      · exact List.mem_cons_self _ _
      · exact List.mem_cons_of_mem _ (ih hy')

theorem overloaded_nodes_mem {vms : List LBVM} {nodes : List LBNode} {x : String × Nat}
    (hx : x ∈ overloaded_nodes vms nodes) :
    x.1 ∈ online_nodes nodes ∧ target_count vms nodes x.1 < vm_count_per_node vms x.1 ∧
      x.2 = vm_count_per_node vms x.1 - target_count vms nodes x.1 := by
  have hx' := (stableSort_perm _ _).mem_iff.mp hx
  rcases List.mem_filterMap.mp hx' with ⟨n, hn, hcond⟩
  by_cases h : target_count vms nodes n < vm_count_per_node vms n
  · rw [if_pos h] at hcond
    cases hcond
    exact ⟨firstKeys_subset hn, h, rfl⟩
  · rw [if_neg h] at hcond
    cases hcond

theorem underloaded_nodes_mem {vms : List LBVM} {nodes : List LBNode} {x : String × Nat}
    (hx : x ∈ underloaded_nodes vms nodes) :
    x.1 ∈ online_nodes nodes ∧ vm_count_per_node vms x.1 < target_count vms nodes x.1 ∧
      x.2 = target_count vms nodes x.1 - vm_count_per_node vms x.1 := by
  have hx' := (stableSort_perm _ _).mem_iff.mp hx
  rcases List.mem_filterMap.mp hx' with ⟨n, hn, hcond⟩
  by_cases h : vm_count_per_node vms n < target_count vms nodes n
  · rw [if_pos h] at hcond
    cases hcond
    exact ⟨firstKeys_subset hn, h, rfl⟩
  · rw [if_neg h] at hcond
    cases hcond

theorem migrateFrom_nil (src tgt : String) (needed migrated : Nat) (plan : LBPlan) :
    migrateFrom src tgt [] needed migrated plan = (plan, migrated) := rfl

theorem migrateFrom_cons (src tgt : String) (vm : LBVM) (rest : List LBVM)
    (needed migrated : Nat) (plan : LBPlan) :
    migrateFrom src tgt (vm :: rest) needed migrated plan =
      if needed ≤ migrated then (plan, migrated)
      else if vm.name ∈ dictKeys plan then migrateFrom src tgt rest needed migrated plan
      else migrateFrom src tgt rest needed (migrated + 1)
        (plan ++ [(vm.name, ⟨src, tgt⟩)]) := rfl

theorem migrateFrom_mem {src tgt : String} :
    ∀ {l : List LBVM} {needed migrated : Nat} {plan : LBPlan} {e : String × Move},
      e ∈ (migrateFrom src tgt l needed migrated plan).1 →
      e ∈ plan ∨ ((∃ vm ∈ l, vm.name = e.1) ∧ e.2 = ⟨src, tgt⟩) := by
  intro l
  induction l with
  | nil => intro _ _ _ _ h; exact Or.inl h
  | cons vm rest ih =>
    intro needed migrated plan e h
    rw [migrateFrom_cons] at h
    by_cases h1 : needed ≤ migrated
    · rw [if_pos h1] at h; exact Or.inl h
    · rw [if_neg h1] at h
      by_cases h2 : vm.name ∈ dictKeys plan
      · rw [if_pos h2] at h
        rcases ih h with h' | ⟨⟨w, hw, he⟩, hmv⟩
        · exact Or.inl h'
        · exact Or.inr ⟨⟨w, List.mem_cons_of_mem _ hw, he⟩, hmv⟩
      · rw [if_neg h2] at h
        rcases ih h with h' | ⟨⟨w, hw, he⟩, hmv⟩
        · rcases List.mem_append.mp h' with h'' | h''
          · exact Or.inl h''
          · rcases List.mem_singleton.mp h'' with rfl
            exact Or.inr ⟨⟨vm, List.mem_cons_self _ _, rfl⟩, rfl⟩
        · exact Or.inr ⟨⟨w, List.mem_cons_of_mem _ hw, he⟩, hmv⟩

theorem migrateFrom_nodup {src tgt : String} :
    ∀ {l : List LBVM} {needed migrated : Nat} {plan : LBPlan},
      (dictKeys plan).Nodup →
      (dictKeys (migrateFrom src tgt l needed migrated plan).1).Nodup := by
  intro l
  induction l with
  | nil => intro _ _ _ h; exact h
  | cons vm rest ih =>
    intro needed migrated plan h
    rw [migrateFrom_cons]
    by_cases h1 : needed ≤ migrated
    · rw [if_pos h1]; exact h
    · rw [if_neg h1]
      by_cases h2 : vm.name ∈ dictKeys plan
      · rw [if_pos h2]; exact ih h
      · rw [if_neg h2]
        refine ih ?_
        rw [dictKeys_append]
        refine List.Nodup.append h (List.nodup_singleton _) ?_
        intro a ha hb
        rcases List.mem_singleton.mp (by simpa [dictKeys] using hb) with rfl
        exact h2 ha

theorem balanceLoop_zero (vms : List LBVM) (over under : List (String × Nat))
    (oi ui : Nat) (plan : LBPlan) : balanceLoop vms 0 over under oi ui plan = plan := rfl

theorem balanceLoop_entries {vms : List LBVM} (P : String × Move → Prop)
    (S T : String → Prop)
    (hnew : ∀ (vm : LBVM) (so tg : String), vm ∈ vms → vm.node = so → S so → T tg →
      P (vm.name, ⟨so, tg⟩)) :
    ∀ (fuel : Nat) {over under : List (String × Nat)} {oi ui : Nat} {plan : LBPlan},
      (∀ x ∈ over, S x.1) → (∀ x ∈ under, T x.1) → (∀ e ∈ plan, P e) →
      ∀ e ∈ balanceLoop vms fuel over under oi ui plan, P e := by
  intro fuel
  induction fuel with
  | zero => intro over under oi ui plan _ _ hP e he; exact hP e he
  | succ fuel ih =>
    intro over under oi ui plan hS hT hP e he
    rw [balanceLoop] at he
    split at he
    case isTrue h =>
      have hSsrc : S (over.get ⟨oi, h.1⟩).1 := hS _ (over.get_mem _ _)
      have hTtgt : T (under.get ⟨ui, h.2⟩).1 := hT _ (under.get_mem _ _)
      refine ih ?_ ?_ ?_ e he
      · intro x hx
        split at hx
        · exact hS x hx
        · rcases List.mem_or_eq_of_mem_set hx with hx' | rfl
          · exact hS x hx'
          · exact hSsrc
      · intro x hx
        split at hx
        · exact hT x hx
        · rcases List.mem_or_eq_of_mem_set hx with hx' | rfl
          · exact hT x hx'
          · exact hTtgt
      · intro f hf
        rcases migrateFrom_mem hf with hf' | ⟨⟨vm, hvm, hname⟩, hmv⟩
        · exact hP f hf'
        · rcases List.mem_filter.mp hvm with ⟨hvmem, hcond⟩
          have hnode : vm.node = (over.get ⟨oi, h.1⟩).1 := by simpa using hcond
          have := hnew vm _ _ hvmem hnode hSsrc hTtgt
          rw [hname] at this
          rw [← hmv] at this
          simpa using this
    case isFalse => exact hP e he

theorem balanceLoop_nodup {vms : List LBVM} :
    ∀ (fuel : Nat) {over under : List (String × Nat)} {oi ui : Nat} {plan : LBPlan},
      (dictKeys plan).Nodup → (dictKeys (balanceLoop vms fuel over under oi ui plan)).Nodup := by
  intro fuel
  induction fuel with
  | zero => intro _ _ _ _ _ h; exact h
  | succ fuel ih =>
    intro over under oi ui plan h
    rw [balanceLoop]
    split
    · exact ih (migrateFrom_nodup h)
    · exact h

theorem load_balance_plan_eq (vms : List LBVM) (nodes : List LBNode) :
    load_balance_plan vms nodes =
      if vms = [] ∨ nodes = [] then []
      else if (online_nodes nodes).length < 2 then []
      else balanceLoop vms
        ((overloaded_nodes vms nodes).length + (underloaded_nodes vms nodes).length)
        (overloaded_nodes vms nodes) (underloaded_nodes vms nodes) 0 0 [] := rfl

theorem load_balance_plan_entries {vms : List LBVM} {nodes : List LBNode}
    (P : String × Move → Prop)
    (hnew : ∀ (vm : LBVM) (so tg : String), vm ∈ vms → vm.node = so →
      (so ∈ online_nodes nodes ∧ target_count vms nodes so < vm_count_per_node vms so) →
      (tg ∈ online_nodes nodes ∧ vm_count_per_node vms tg < target_count vms nodes tg) →
      P (vm.name, ⟨so, tg⟩)) :
    ∀ e ∈ load_balance_plan vms nodes, P e := by
  intro e he
  rw [load_balance_plan_eq] at he
  by_cases h1 : vms = [] ∨ nodes = []
  · rw [if_pos h1] at he; cases he
  · rw [if_neg h1] at he
    by_cases h2 : (online_nodes nodes).length < 2
    · rw [if_pos h2] at he; cases he
    · rw [if_neg h2] at he
      refine balanceLoop_entries P
        (fun n => n ∈ online_nodes nodes ∧ target_count vms nodes n < vm_count_per_node vms n)
        (fun n => n ∈ online_nodes nodes ∧ vm_count_per_node vms n < target_count vms nodes n)
        hnew _ ?_ ?_ ?_ e he
      · intro x hx
        obtain ⟨h₁, h₂, -⟩ := overloaded_nodes_mem hx
        exact ⟨h₁, h₂⟩
      · intro x hx
        obtain ⟨h₁, h₂, -⟩ := underloaded_nodes_mem hx
        exact ⟨h₁, h₂⟩
      · intro f hf; cases hf

/-- **C7** — Every entry of the rebalance plan names as source and as
target only nodes whose operational status is `"online"`. -/
theorem c7_plan_nodes_online (vms : List LBVM) (nodes : List LBNode) :
    ∀ e ∈ load_balance_plan vms nodes,
      e.2.source_node ∈ online_nodes nodes ∧ e.2.target_node ∈ online_nodes nodes := by
  exact load_balance_plan_entries _
    (fun vm so tg _ _ hso htg => ⟨hso.1, htg.1⟩)

/-- The C7 theorem at a concrete input: the entry moving `"vm1"` from
`"n1"` to `"n2"` is in the plan and names only online nodes. -/
theorem c7_witness :
    (("vm1", (⟨"n1", "n2"⟩ : Move)) ∈ load_balance_plan
        ([⟨"vm1", "n1"⟩, ⟨"vm2", "n1"⟩] : List LBVM)
        ([⟨"n1", "online"⟩, ⟨"n2", "online"⟩] : List LBNode)) ∧
    (("vm1", (⟨"n1", "n2"⟩ : Move)).2.source_node ∈
        online_nodes [⟨"n1", "online"⟩, ⟨"n2", "online"⟩] ∧
      ("vm1", (⟨"n1", "n2"⟩ : Move)).2.target_node ∈
        online_nodes [⟨"n1", "online"⟩, ⟨"n2", "online"⟩]) :=
  ⟨by decide, c7_plan_nodes_online [⟨"vm1", "n1"⟩, ⟨"vm2", "n1"⟩]
    [⟨"n1", "online"⟩, ⟨"n2", "online"⟩] ("vm1", ⟨"n1", "n2"⟩) (by decide)⟩

/-- **C8** — No plan names its forbidden node as target and no VM
identifier appears twice: every rebalance entry's target differs from
its source and the rebalance plan's keys are distinct; a successful
evacuation plan never maps a VM to `node_to_upgrade` and its keys are
distinct. -/
theorem c8_no_forbidden_target_no_duplicate_vm :
    (∀ (vms : List LBVM) (nodes : List LBNode),
      (∀ e ∈ load_balance_plan vms nodes, e.2.source_node ≠ e.2.target_node) ∧
        (dictKeys (load_balance_plan vms nodes)).Nodup) ∧
    (∀ (vms : List PVM) (nodes : List PNode) (nd : String) (p : List (String × String)),
      migration_plan vms nodes nd = .ok p →
        (∀ e ∈ p, e.2 ≠ nd) ∧ (dictKeys p).Nodup) := by
  constructor
  · intro vms nodes
    constructor
    · refine load_balance_plan_entries _ ?_
      intro vm so tg _ _ hso htg
      intro hcontra
      simp only at hcontra
      rw [hcontra] at hso
      exact absurd htg.2 (not_lt.mpr (le_of_lt hso.2))
    · rw [load_balance_plan_eq]
      by_cases h1 : vms = [] ∨ nodes = []
      · rw [if_pos h1]; exact List.nodup_nil
      · rw [if_neg h1]
        by_cases h2 : (online_nodes nodes).length < 2
        · rw [if_pos h2]; exact List.nodup_nil
        · rw [if_neg h2]
          exact balanceLoop_nodup _ List.nodup_nil
  · intro vms nodes nd p hp
    by_cases hall : ∀ vm ∈ vms, vm.node ≠ nd
    · rw [migration_plan, if_pos hall] at hp
      cases hp
      exact ⟨fun e he => absurd he (List.not_mem_nil e), List.nodup_nil⟩
    · rw [migration_plan, if_neg hall] at hp
      cases hres : placeAll (sorted_candidates vms nd) (init_nodes vms nodes nd) [] with
      | error e => rw [hres] at hp; cases hp
      | ok pr =>
        obtain ⟨p', st'⟩ := pr
        rw [hres] at hp
        simp only [Except.map] at hp
        cases hp
        constructor
        · intro e he
          rcases placeAll_values hres e he with h' | ⟨-, hv⟩
          · cases h'
          · obtain ⟨node, -, hne, hname⟩ := mem_dictKeys_init_nodes.mp hv
            rw [← hname]
            exact hne
        · exact placeAll_nodup_keys hres List.nodup_nil

/-- **C1** (amended) — VMs on nodes outside the online set are never
counted in any per-node count and never appear in the plan, but — the
target distribution being computed from the length of the full VM
list — the returned plan need not equal the plan for the input with
those VMs removed. -/
theorem c1_offline_vms_not_counted_not_moved (vms : List LBVM) (nodes : List LBNode) :
    (∀ n ∈ online_nodes nodes,
      vm_count_per_node vms n =
        vm_count_per_node
          (vms.filter (fun vm => decide (vm.node ∈ online_nodes nodes))) n) ∧
    (∀ e ∈ load_balance_plan vms nodes,
      ∃ vm ∈ vms, vm.name = e.1 ∧ vm.node ∈ online_nodes nodes) := by
  constructor
  · intro n hn
    unfold vm_count_per_node
    rw [List.filter_filter]
    congr 1
    apply List.filter_congr
    intro vm _
    by_cases hvn : vm.node = n
    · simp [hvn, hn]
    · simp [hvn]
  · refine load_balance_plan_entries _ ?_
    intro vm so tg hvm hnode hso _
    exact ⟨vm, hvm, rfl, by rw [hnode]; exact hso.1⟩

/-- Counterexample to C1 as frozen: a VM parked on the absent node
`"n3"` changes the computed target distribution (through the total VM
count), so removing it changes the returned plan. -/
theorem c1_counterexample :
    load_balance_plan [⟨"vm1", "n1"⟩, ⟨"vm2", "n1"⟩, ⟨"vm3", "n3"⟩]
        [⟨"n1", "online"⟩, ⟨"n2", "online"⟩] ≠
      load_balance_plan [⟨"vm1", "n1"⟩, ⟨"vm2", "n1"⟩]
        [⟨"n1", "online"⟩, ⟨"n2", "online"⟩] := by
  decide

/-! ### The target distribution under distinct node identifiers -/

theorem dictLookup_eq_of_mem {β : Type} :
    ∀ {d : List (String × β)}, (dictKeys d).Nodup →
      ∀ {k : String} {v : β}, (k, v) ∈ d → dictLookup k d = some v := by
  intro d
  induction d with
  | nil => intro _ k v h; cases h
  | cons e rest ih =>
    intro hnd k v h
    rw [dictKeys_cons, List.nodup_cons] at hnd
    rcases List.mem_cons.mp h with rfl | h'
    · simp [dictLookup]
    · rw [dictLookup]
      by_cases hk : e.1 = k
      · exfalso
        apply hnd.1
        rw [hk]
        exact List.mem_map_of_mem Prod.fst h'
      · rw [if_neg hk]
        exact ih hnd.2 h'

theorem foldl_dictInsert_eq_append {β γ : Type} (key : γ → String) (val : γ → β) :
    ∀ (L : List γ) (acc : List (String × β)),
      (L.map key).Nodup → (∀ g ∈ L, key g ∉ dictKeys acc) →
      L.foldl (fun d g => dictInsert (key g) (val g) d) acc
        = acc ++ L.map (fun g => (key g, val g)) := by
  intro L
  induction L with
  | nil => intro acc _ _; simp
  | cons g L' ih =>
    intro acc hnd hdisj
    rw [List.map_cons, List.nodup_cons] at hnd
    simp only [List.foldl_cons]
    rw [dictInsert_of_not_mem (hdisj g (List.mem_cons_self _ _)),
      ih (acc ++ [(key g, val g)]) hnd.2 ?_, List.append_assoc, List.singleton_append,
      List.map_cons]
    intro g' hg'
    rw [dictKeys_append]
    simp only [List.mem_append]
    rintro (h | h)
    · exact hdisj g' (List.mem_cons_of_mem _ hg') h
    · apply hnd.1
      have : key g' = key g := by simpa [dictKeys] using h
      rw [← this]
      exact List.mem_map_of_mem key hg'

theorem firstKeys_eq_self {l : List String} (hnd : l.Nodup) :
    ∀ {seen : List String}, (∀ x ∈ l, x ∉ seen) → firstKeys l seen = l := by
  induction l with
  | nil => intro _ _; rfl
  | cons x xs ih =>
    intro seen hdisj
    rw [List.nodup_cons] at hnd
    rw [show firstKeys (x :: xs) seen = x :: firstKeys xs (x :: seen) from by
      simp [firstKeys, hdisj x (List.mem_cons_self _ _)]]
    congr 1
    refine ih hnd.2 ?_
    intro y hy
    simp only [List.mem_cons]
    rintro (rfl | h)
    · exact hnd.1 hy
    · exact hdisj y (List.mem_cons_of_mem _ hy) h

theorem dictOrder_eq_self {l : List String} (hnd : l.Nodup) : dictOrder l = l :=
  firstKeys_eq_self hnd (fun x _ h => absurd h (List.not_mem_nil x))

theorem map_getD_dictLookup {β : Type} (dflt : β) :
    ∀ {d : List (String × β)}, (dictKeys d).Nodup →
      (dictKeys d).map (fun k => (dictLookup k d).getD dflt) = d.map Prod.snd := by
  intro d
  induction d with
  | nil => intro _; rfl
  | cons e rest ih =>
    intro hnd
    have hnd' := hnd
    rw [dictKeys_cons, List.nodup_cons] at hnd'
    rw [dictKeys_cons, List.map_cons, List.map_cons]
    congr 1
    · simp [dictLookup]
    · rw [← ih hnd'.2]
      apply List.map_congr_left
      intro k hk
      rw [dictLookup]
      have hke : ¬e.1 = k := fun hc => hnd'.1 (hc ▸ hk)
      rw [if_neg hke]

/-- With distinct online-node identifiers, the target-distribution dict
is literally the enumerated sorted node list paired with its quotas. -/
theorem target_distribution_eq {vms : List LBVM} {nodes : List LBNode}
    (hnd : (online_nodes nodes).Nodup) :
    target_distribution vms nodes =
      (stableSort pyStrLe (online_nodes nodes)).enum.map
        (fun p => (p.2, target_base vms nodes +
          if p.1 < target_remainder vms nodes then 1 else 0)) := by
  have hsortnd : (stableSort pyStrLe (online_nodes nodes)).Nodup :=
    (stableSort_perm pyStrLe (online_nodes nodes)).nodup_iff.mpr hnd
  have henum : ((stableSort pyStrLe (online_nodes nodes)).enum.map Prod.snd).Nodup := by
    rw [List.enum_map_snd]
    exact hsortnd
  rw [target_distribution,
    foldl_dictInsert_eq_append Prod.snd
      (fun p => target_base vms nodes + if p.1 < target_remainder vms nodes then 1 else 0)
      _ [] henum (fun g _ h => absurd h (List.not_mem_nil _)),
    List.nil_append]

theorem dictKeys_target_distribution {vms : List LBVM} {nodes : List LBNode}
    (hnd : (online_nodes nodes).Nodup) :
    dictKeys (target_distribution vms nodes)
      = stableSort pyStrLe (online_nodes nodes) := by
  rw [target_distribution_eq hnd, dictKeys, List.map_map]
  have : (Prod.fst ∘ fun p : Nat × String =>
      (p.2, target_base vms nodes + if p.1 < target_remainder vms nodes then 1 else 0))
      = Prod.snd := by
    funext p; rfl
  rw [this, List.enum_map_snd]

/-- Sum of the per-node quotas over all online nodes: the full VM-list
length (distinct node identifiers, at least one online node). -/
theorem sum_target_count {vms : List LBVM} {nodes : List LBNode}
    (hnd : (online_nodes nodes).Nodup) (hne : 1 ≤ (online_nodes nodes).length) :
    ((online_nodes nodes).map (target_count vms nodes)).sum = vms.length := by
  have hperm : (stableSort pyStrLe (online_nodes nodes)).Perm (online_nodes nodes) :=
    stableSort_perm pyStrLe (online_nodes nodes)
  have hkeys := @dictKeys_target_distribution vms nodes hnd
  have hlen : (stableSort pyStrLe (online_nodes nodes)).length
      = (online_nodes nodes).length := hperm.length_eq
  have hndkeys : (dictKeys (target_distribution vms nodes)).Nodup := by
    rw [hkeys]
    exact hperm.nodup_iff.mpr hnd
  have hmapsum : ((online_nodes nodes).map (target_count vms nodes)).sum
      = ((stableSort pyStrLe (online_nodes nodes)).map (target_count vms nodes)).sum :=
    ((hperm.map (target_count vms nodes)).sum_eq).symm
  rw [hmapsum]
  have hvals : (stableSort pyStrLe (online_nodes nodes)).map (target_count vms nodes)
      = (target_distribution vms nodes).map Prod.snd := by
    rw [← hkeys]
    exact map_getD_dictLookup 0 hndkeys
  rw [hvals, target_distribution_eq hnd, List.map_map]
  have hcomp : (Prod.snd ∘ fun p : Nat × String =>
      (p.2, target_base vms nodes + if p.1 < target_remainder vms nodes then 1 else 0))
      = (fun p : Nat × String =>
          target_base vms nodes + if p.1 < target_remainder vms nodes then 1 else 0) := by
    funext p; rfl
  rw [hcomp]
  have henumfst : (stableSort pyStrLe (online_nodes nodes)).enum.map
      (fun p : Nat × String =>
        target_base vms nodes + if p.1 < target_remainder vms nodes then 1 else 0)
      = ((List.range (online_nodes nodes).length).map
          (fun i => target_base vms nodes + if i < target_remainder vms nodes then 1 else 0)) := by
    rw [show (fun p : Nat × String =>
        target_base vms nodes + if p.1 < target_remainder vms nodes then 1 else 0)
      = ((fun i => target_base vms nodes + if i < target_remainder vms nodes then 1 else 0)
          ∘ Prod.fst) from rfl, ← List.map_map, List.enum_map_fst, hlen]
  rw [henumfst]
  have hgen : ∀ (N b r : Nat),
      ((List.range N).map (fun i => b + if i < r then 1 else 0)).sum
        = N * b + min r N := by
    intro N b r
    induction N with
    | zero => simp
    | succ N ihN =>
      rw [List.range_succ, List.map_append, List.sum_append, ihN]
      simp only [List.map_cons, List.map_nil, List.sum_cons, List.sum_nil]
      by_cases hNr : N < r
      · rw [if_pos hNr]
        have : min r (N + 1) = min r N + 1 := by omega
        rw [this]
        ring
      · rw [if_neg hNr]
        have : min r (N + 1) = min r N := by omega
        rw [this]
        ring
  rw [hgen]
  have hrlt : target_remainder vms nodes < (online_nodes nodes).length :=
    Nat.mod_lt _ (by omega)
  have : min (target_remainder vms nodes) (online_nodes nodes).length
      = target_remainder vms nodes := by omega
  rw [this, target_base, target_remainder]
  exact Nat.div_add_mod vms.length (online_nodes nodes).length

/-- The per-node quota, read off the sorted position (distinct node
identifiers). -/
theorem target_count_eq {vms : List LBVM} {nodes : List LBNode}
    (hnd : (online_nodes nodes).Nodup) {n : String} {i : Nat}
    (hi : i < (stableSort pyStrLe (online_nodes nodes)).length)
    (hn : (stableSort pyStrLe (online_nodes nodes)).get ⟨i, hi⟩ = n) :
    target_count vms nodes n = target_base vms nodes +
      if i < target_remainder vms nodes then 1 else 0 := by
  have hndkeys : (dictKeys (target_distribution vms nodes)).Nodup := by
    rw [dictKeys_target_distribution hnd]
    exact (stableSort_perm pyStrLe (online_nodes nodes)).nodup_iff.mpr hnd
  have hmem : (n, target_base vms nodes +
      if i < target_remainder vms nodes then 1 else 0) ∈ target_distribution vms nodes := by
    rw [target_distribution_eq hnd]
    refine List.mem_map.mpr ⟨(i, n), ?_, rfl⟩
    rw [← hn]
    exact List.mem_enum_iff_getElem?.mpr (by
      simp [List.getElem?_eq_getElem hi])
  rw [target_count, dictLookup_eq_of_mem hndkeys hmem]
  rfl

/-! ### Counting claimed VMs -/

theorem countP_disj {α : Type} (p q : α → Bool) (h : ∀ a, ¬(p a = true ∧ q a = true)) :
    ∀ (l : List α), l.countP (fun a => p a || q a) = l.countP p + l.countP q := by
  intro l
  induction l with
  | nil => simp
  | cons a rest ih =>
    rw [List.countP_cons, List.countP_cons, List.countP_cons, ih]
    by_cases hp : p a = true
    · have hq : ¬q a = true := fun hq => h a ⟨hp, hq⟩
      simp [hp, hq]
      omega
    · by_cases hq : q a = true
      · simp [hp, hq]
        omega
      · simp [hp, hq]

theorem name_unique {vms : List LBVM} (h : (vms.map LBVM.name).Nodup)
    {a b : LBVM} (ha : a ∈ vms) (hb : b ∈ vms) (hn : a.name = b.name) : a = b :=
  List.inj_on_of_nodup_map h ha hb hn

theorem count_names_unique {vms : List LBVM} (h : (vms.map LBVM.name).Nodup)
    (k : String) (q : LBVM → Bool) :
    vms.countP (fun vm => decide (vm.name = k) && q vm)
      = if ∃ vm ∈ vms, vm.name = k ∧ q vm = true then 1 else 0 := by
  induction vms with
  | nil => simp
  | cons vm rest ih =>
    rw [List.map_cons, List.nodup_cons] at h
    rw [List.countP_cons, ih h.2,
      if_congr (show ((decide (vm.name = k) && q vm) = true)
          ↔ (vm.name = k ∧ q vm = true) from by simp) rfl rfl]
    by_cases hvk : vm.name = k
    · have hrest : ¬∃ w ∈ rest, w.name = k ∧ q w = true := by
        rintro ⟨w, hw, hwk, -⟩
        apply h.1
        rw [hvk, ← hwk]
        exact List.mem_map_of_mem LBVM.name hw
      rw [if_neg hrest]
      by_cases hq : q vm = true
      · rw [if_pos ⟨hvk, hq⟩,
          if_pos ⟨vm, List.mem_cons_self _ _, hvk, hq⟩]
      · have hno : ¬∃ w ∈ vm :: rest, w.name = k ∧ q w = true := by
          rintro ⟨w, hw, hwk, hwq⟩
          rcases List.mem_cons.mp hw with rfl | hw'
          · exact hq hwq
          · exact hrest ⟨w, hw', hwk, hwq⟩
        rw [if_neg (show ¬(vm.name = k ∧ q vm = true) from fun hc => hq hc.2),
          if_neg hno]
    · have hiff : (∃ w ∈ rest, w.name = k ∧ q w = true)
          ↔ (∃ w ∈ vm :: rest, w.name = k ∧ q w = true) := by
        constructor
        · rintro ⟨w, hw, hwk, hwq⟩
          exact ⟨w, List.mem_cons_of_mem _ hw, hwk, hwq⟩
        · rintro ⟨w, hw, hwk, hwq⟩
          rcases List.mem_cons.mp hw with rfl | hw'
          · exact absurd hwk hvk
          · exact ⟨w, hw', hwk, hwq⟩
      rw [if_neg (show ¬(vm.name = k ∧ q vm = true) from fun hc => hvk hc.1),
        if_congr hiff rfl rfl, Nat.add_zero]

theorem outflow_append (p q : LBPlan) (n : String) :
    outflow (p ++ q) n = outflow p n + outflow q n := by
  rw [outflow, outflow, outflow, List.filter_append, List.length_append]

theorem inflow_append (p q : LBPlan) (n : String) :
    inflow (p ++ q) n = inflow p n + inflow q n := by
  rw [inflow, inflow, inflow, List.filter_append, List.length_append]

theorem outflow_cons (e : String × Move) (p : LBPlan) (n : String) :
    outflow (e :: p) n = (if e.2.source_node = n then 1 else 0) + outflow p n := by
  rw [outflow, outflow, List.filter_cons]
  by_cases h : e.2.source_node = n
  · simp [h, Nat.add_comm]
  · simp [h]

theorem inflow_cons (e : String × Move) (p : LBPlan) (n : String) :
    inflow (e :: p) n = (if e.2.target_node = n then 1 else 0) + inflow p n := by
  rw [inflow, inflow, List.filter_cons]
  by_cases h : e.2.target_node = n
  · simp [h, Nat.add_comm]
  · simp [h]

/-- With distinct VM names, a plan that claims only names of actual
VMs (each living on the entry's source node) claims, among the VMs of
node `n`, exactly as many as it has entries with source `n`. -/
theorem claimed_count_eq_outflow {vms : List LBVM} (hnames : (vms.map LBVM.name).Nodup)
    (n : String) :
    ∀ {plan : LBPlan}, (dictKeys plan).Nodup →
      (∀ e ∈ plan, ∃ vm ∈ vms, vm.name = e.1 ∧ vm.node = e.2.source_node) →
      vms.countP (fun vm => decide (vm.node = n) && decide (vm.name ∈ dictKeys plan))
        = outflow plan n := by
  intro plan
  induction plan with
  | nil =>
    intro _ _
    rw [show outflow [] n = 0 from rfl]
    rw [List.countP_eq_zero]
    intro vm _
    simp [dictKeys]
  | cons e plan' ih =>
    intro hnd hprop
    rw [dictKeys_cons, List.nodup_cons] at hnd
    have hstep : vms.countP
        (fun vm => decide (vm.node = n) && decide (vm.name ∈ dictKeys (e :: plan')))
        = vms.countP (fun vm => (decide (vm.node = n) && decide (vm.name = e.1))
            || (decide (vm.node = n) && decide (vm.name ∈ dictKeys plan'))) := by
      apply List.countP_congr
      intro vm _
      rw [dictKeys_cons]
      by_cases h1 : vm.node = n <;> by_cases h2 : vm.name = e.1 <;>
        by_cases h3 : vm.name ∈ dictKeys plan' <;> simp [h1, h2, h3]
    rw [hstep, countP_disj _ _ (by
      rintro vm ⟨hl, hr⟩
      simp only [Bool.and_eq_true, decide_eq_true_eq] at hl hr
      exact hnd.1 (hl.2 ▸ hr.2))]
    have hfirst : vms.countP (fun vm => decide (vm.node = n) && decide (vm.name = e.1))
        = if e.2.source_node = n then 1 else 0 := by
      have hcomm : ∀ x ∈ vms, ((decide (x.node = n) && decide (x.name = e.1)) = true
          ↔ (decide (x.name = e.1) && decide (x.node = n)) = true) := by
        intro x _
        rw [Bool.and_comm]
      rw [List.countP_congr hcomm,
        count_names_unique hnames e.1 (fun vm => decide (vm.node = n))]
      obtain ⟨vm₀, hvm₀, hname₀, hnode₀⟩ := hprop e (List.mem_cons_self _ _)
      by_cases hsrc : e.2.source_node = n
      · rw [if_pos hsrc, if_pos ⟨vm₀, hvm₀, hname₀, by
          simp only [decide_eq_true_eq]
          rw [hnode₀, hsrc]⟩]
      · rw [if_neg hsrc, if_neg ?hno2]
        case hno2 =>
          rintro ⟨w, hw, hwname, hwnode⟩
          simp only [decide_eq_true_eq] at hwnode
          have hww : w = vm₀ := name_unique hnames hw hvm₀ (hwname.trans hname₀.symm)
          apply hsrc
          rw [← hnode₀, ← hww]
          exact hwnode
    rw [hfirst, ih hnd.2 (fun f hf => hprop f (List.mem_cons_of_mem _ hf)),
      outflow_cons]

theorem migrateFrom_counts {src tgt : String} :
    ∀ {l : List LBVM} {needed migrated : Nat} {plan : LBPlan},
      migrated ≤ needed →
      ∃ d, (migrateFrom src tgt l needed migrated plan).2 = migrated + d ∧
        migrated + d ≤ needed ∧
        (∀ n, outflow (migrateFrom src tgt l needed migrated plan).1 n
            = outflow plan n + if src = n then d else 0) ∧
        (∀ n, inflow (migrateFrom src tgt l needed migrated plan).1 n
            = inflow plan n + if tgt = n then d else 0) := by
  intro l
  induction l with
  | nil =>
    intro needed migrated plan hmn
    exact ⟨0, rfl, by omega, fun n => by simp [migrateFrom_nil], fun n => by
      simp [migrateFrom_nil]⟩
  | cons vm rest ih =>
    intro needed migrated plan hmn
    rw [migrateFrom_cons]
    by_cases h1 : needed ≤ migrated
    · rw [if_pos h1]
      exact ⟨0, rfl, by omega, fun n => by simp, fun n => by simp⟩
    · rw [if_neg h1]
      by_cases h2 : vm.name ∈ dictKeys plan
      · rw [if_pos h2]
        exact ih hmn
      · rw [if_neg h2]
        obtain ⟨d, hd, hle, hout, hin⟩ :=
          @ih needed (migrated + 1) (plan ++ [(vm.name, ⟨src, tgt⟩)]) (by omega)
        refine ⟨d + 1, by omega, by omega, ?_, ?_⟩
        · intro n
          rw [hout n, outflow_append]
          rw [show outflow [(vm.name, ⟨src, tgt⟩)] n = if src = n then 1 else 0 from by
            rw [outflow_cons]
            simp [outflow]]
          by_cases hsn : src = n <;> simp [hsn] <;> omega
        · intro n
          rw [hin n, inflow_append]
          rw [show inflow [(vm.name, ⟨src, tgt⟩)] n = if tgt = n then 1 else 0 from by
            rw [inflow_cons]
            simp [inflow]]
          by_cases htn : tgt = n <;> simp [htn] <;> omega

theorem migrateFrom_exact {src tgt : String} :
    ∀ {l : List LBVM} {needed migrated : Nat} {plan : LBPlan},
      (l.map LBVM.name).Nodup → migrated ≤ needed →
      needed ≤ migrated +
        (l.filter (fun vm => !decide (vm.name ∈ dictKeys plan))).length →
      (migrateFrom src tgt l needed migrated plan).2 = needed := by
  intro l
  induction l with
  | nil =>
    intro needed migrated plan _ hmn hub
    simp only [List.filter_nil, List.length_nil] at hub
    rw [migrateFrom_nil]
    omega
  | cons vm rest ih =>
    intro needed migrated plan hnd hmn hub
    rw [List.map_cons, List.nodup_cons] at hnd
    rw [migrateFrom_cons]
    by_cases h1 : needed ≤ migrated
    · rw [if_pos h1]
      omega
    · rw [if_neg h1]
      by_cases h2 : vm.name ∈ dictKeys plan
      · rw [if_pos h2]
        refine ih hnd.2 hmn ?_
        rw [List.filter_cons] at hub
        simpa [h2] using hub
      · rw [if_neg h2]
        refine ih hnd.2 (by omega) ?_
        have hsame : rest.filter
            (fun vm' => !decide (vm'.name ∈ dictKeys (plan ++ [(vm.name, ⟨src, tgt⟩)])))
            = rest.filter (fun vm' => !decide (vm'.name ∈ dictKeys plan)) := by
          apply List.filter_congr
          intro w hw
          have hwname : ¬w.name = vm.name := by
            intro hc
            exact hnd.1 (hc ▸ List.mem_map_of_mem LBVM.name hw)
          rw [dictKeys_append]
          by_cases h3 : w.name ∈ dictKeys plan <;>
            simp [h3, dictKeys, hwname]
        rw [hsame]
        rw [List.filter_cons, if_pos (by simp [h2]), List.length_cons] at hub
        omega

/-! ### Sums of counts, quotas, excesses and deficits -/

theorem sum_map_add {α : Type} (f g : α → Nat) (l : List α) :
    (l.map (fun a => f a + g a)).sum = (l.map f).sum + (l.map g).sum := by
  induction l with
  | nil => rfl
  | cons a ll ih =>
    simp only [List.map_cons, List.sum_cons, ih]
    omega

theorem count_cons (vm : LBVM) (vms : List LBVM) (n : String) :
    vm_count_per_node (vm :: vms) n
      = (if vm.node = n then 1 else 0) + vm_count_per_node vms n := by
  unfold vm_count_per_node
  rw [List.filter_cons]
  by_cases h : vm.node = n
  · simp [h, Nat.add_comm]
  · simp [h]

theorem sum_indicator_one {onl : List String} (hnd : onl.Nodup) {x : String} (hx : x ∈ onl) :
    (onl.map (fun n => if x = n then 1 else 0)).sum = 1 := by
  induction onl with
  | nil => cases hx
  | cons a rest ih =>
    rw [List.nodup_cons] at hnd
    rw [List.map_cons, List.sum_cons]
    rcases List.mem_cons.mp hx with rfl | hx'
    · rw [if_pos rfl]
      have hz : (rest.map (fun n => if x = n then 1 else 0)).sum = 0 := by
        apply List.sum_eq_zero
        intro y hy
        rcases List.mem_map.mp hy with ⟨m, hm, rfl⟩
        rw [if_neg (fun hc : x = m => hnd.1 (hc ▸ hm))]
      omega
    · have hxa : ¬x = a := fun hc => hnd.1 (hc ▸ hx')
      rw [if_neg hxa, ih hnd.2 hx']

theorem sum_counts {vms : List LBVM} {onl : List String} (hnd : onl.Nodup)
    (hall : ∀ vm ∈ vms, vm.node ∈ onl) :
    (onl.map (vm_count_per_node vms)).sum = vms.length := by
  induction vms with
  | nil =>
    have : onl.map (vm_count_per_node []) = onl.map (fun _ => 0) := by
      apply List.map_congr_left
      intro n _
      rfl
    rw [this]
    simp
  | cons vm vms ih =>
    have hall' : ∀ w ∈ vms, w.node ∈ onl := fun w hw => hall w (List.mem_cons_of_mem _ hw)
    have hmap : onl.map (vm_count_per_node (vm :: vms))
        = onl.map (fun n => (if vm.node = n then 1 else 0) + vm_count_per_node vms n) := by
      apply List.map_congr_left
      intro n _
      exact count_cons vm vms n
    rw [List.length_cons, hmap, sum_map_add, ih hall',
      sum_indicator_one hnd (hall vm (List.mem_cons_self _ _))]
    omega

theorem sum_filterMap_ite (cond : String → Prop) [DecidablePred cond]
    (g : String → Nat) (l : List String) :
    ((l.filterMap (fun n => if cond n then some (n, g n) else none)).map Prod.snd).sum
      = (l.map (fun n => if cond n then g n else 0)).sum := by
  induction l with
  | nil => rfl
  | cons a rest ih =>
    rw [List.filterMap_cons, List.map_cons, List.sum_cons]
    by_cases h : cond a
    · rw [if_pos h, if_pos h, List.map_cons, List.sum_cons, ih]
    · rw [if_neg h, if_neg h, ih, Nat.zero_add]

theorem filterMap_ite_fst (cond : String → Prop) [DecidablePred cond]
    (g : String → Nat) (l : List String) :
    (l.filterMap (fun n => if cond n then some (n, g n) else none)).map Prod.fst
      = l.filter (fun n => decide (cond n)) := by
  induction l with
  | nil => rfl
  | cons a rest ih =>
    rw [List.filterMap_cons, List.filter_cons]
    by_cases h : cond a
    · rw [if_pos h, List.map_cons, ih]
      simp [h]
    · rw [if_neg h, ih]
      simp [h]

theorem overloaded_fst_perm {vms : List LBVM} {nodes : List LBNode}
    (hnd : (online_nodes nodes).Nodup) :
    ((overloaded_nodes vms nodes).map Prod.fst).Perm
      ((online_nodes nodes).filter
        (fun n => decide (target_count vms nodes n < vm_count_per_node vms n))) := by
  unfold overloaded_nodes
  refine ((stableSort_perm _ _).map Prod.fst).trans ?_
  rw [filterMap_ite_fst, dictOrder_eq_self hnd]

theorem underloaded_fst_perm {vms : List LBVM} {nodes : List LBNode}
    (hnd : (online_nodes nodes).Nodup) :
    ((underloaded_nodes vms nodes).map Prod.fst).Perm
      ((online_nodes nodes).filter
        (fun n => decide (vm_count_per_node vms n < target_count vms nodes n))) := by
  unfold underloaded_nodes
  refine ((stableSort_perm _ _).map Prod.fst).trans ?_
  rw [filterMap_ite_fst, dictOrder_eq_self hnd]

theorem overloaded_fst_nodup {vms : List LBVM} {nodes : List LBNode}
    (hnd : (online_nodes nodes).Nodup) :
    ((overloaded_nodes vms nodes).map Prod.fst).Nodup :=
  (overloaded_fst_perm hnd).nodup_iff.mpr (hnd.filter _)

theorem underloaded_fst_nodup {vms : List LBVM} {nodes : List LBNode}
    (hnd : (online_nodes nodes).Nodup) :
    ((underloaded_nodes vms nodes).map Prod.fst).Nodup :=
  (underloaded_fst_perm hnd).nodup_iff.mpr (hnd.filter _)

theorem over_under_disjoint {vms : List LBVM} {nodes : List LBNode}
    (hnd : (online_nodes nodes).Nodup) (n : String)
    (hA : n ∈ (overloaded_nodes vms nodes).map Prod.fst)
    (hB : n ∈ (underloaded_nodes vms nodes).map Prod.fst) : False := by
  rcases List.mem_map.mp hA with ⟨x, hx, rfl⟩
  rcases List.mem_map.mp hB with ⟨y, hy, hyx⟩
  obtain ⟨-, hxl, -⟩ := overloaded_nodes_mem hx
  obtain ⟨-, hyl, -⟩ := underloaded_nodes_mem hy
  rw [hyx] at hyl
  omega

theorem sum_excess_eq_sum_deficit {vms : List LBVM} {nodes : List LBNode}
    (hnd : (online_nodes nodes).Nodup) (h1le : 1 ≤ (online_nodes nodes).length)
    (hall : ∀ vm ∈ vms, vm.node ∈ online_nodes nodes) :
    ((overloaded_nodes vms nodes).map Prod.snd).sum
      = ((underloaded_nodes vms nodes).map Prod.snd).sum := by
  have hAsum : ((overloaded_nodes vms nodes).map Prod.snd).sum
      = ((online_nodes nodes).map
          (fun n => if target_count vms nodes n < vm_count_per_node vms n
            then vm_count_per_node vms n - target_count vms nodes n else 0)).sum := by
    unfold overloaded_nodes
    rw [((stableSort_perm _ _).map Prod.snd).sum_eq, sum_filterMap_ite,
      dictOrder_eq_self hnd]
  have hBsum : ((underloaded_nodes vms nodes).map Prod.snd).sum
      = ((online_nodes nodes).map
          (fun n => if vm_count_per_node vms n < target_count vms nodes n
            then target_count vms nodes n - vm_count_per_node vms n else 0)).sum := by
    unfold underloaded_nodes
    rw [((stableSort_perm _ _).map Prod.snd).sum_eq, sum_filterMap_ite,
      dictOrder_eq_self hnd]
  rw [hAsum, hBsum]
  have hptw : (online_nodes nodes).map
      (fun n => vm_count_per_node vms n +
        (if vm_count_per_node vms n < target_count vms nodes n
          then target_count vms nodes n - vm_count_per_node vms n else 0))
      = (online_nodes nodes).map
        (fun n => target_count vms nodes n +
          (if target_count vms nodes n < vm_count_per_node vms n
            then vm_count_per_node vms n - target_count vms nodes n else 0)) := by
    apply List.map_congr_left
    intro n _
    by_cases h1 : vm_count_per_node vms n < target_count vms nodes n
    · rw [if_pos h1, if_neg (by omega)]
      omega
    · by_cases h2 : target_count vms nodes n < vm_count_per_node vms n
      · rw [if_neg h1, if_pos h2]
        omega
      · rw [if_neg h1, if_neg h2]
        omega
  have hsum1 := congrArg List.sum hptw
  rw [sum_map_add, sum_map_add] at hsum1
  have hc := sum_counts hnd hall
  have ht := @sum_target_count vms nodes hnd h1le
  omega

/-! ### The while loop drains every excess and fills every deficit -/

theorem get_fst_eq_of_map_fst_eq {l l' : List (String × Nat)}
    (h : l.map Prod.fst = l'.map Prod.fst) {i : Nat}
    (hi : i < l.length) (hi' : i < l'.length) :
    (l.get ⟨i, hi⟩).1 = (l'.get ⟨i, hi'⟩).1 := by
  have hi2 : i < (l.map Prod.fst).length := by simpa using hi
  have hi3 : i < (l'.map Prod.fst).length := by simpa using hi'
  have hopt : (l.map Prod.fst)[i]? = (l'.map Prod.fst)[i]? := by rw [h]
  rw [List.getElem?_eq_getElem hi2, List.getElem?_eq_getElem hi3] at hopt
  have := Option.some.inj hopt
  simpa using this

theorem fst_get_inj {l : List (String × Nat)} (hnd : (l.map Prod.fst).Nodup)
    {i j : Nat} (hi : i < l.length) (hj : j < l.length)
    (h : (l.get ⟨i, hi⟩).1 = (l.get ⟨j, hj⟩).1) : i = j := by
  have hi2 : i < (l.map Prod.fst).length := by simpa using hi
  have hj2 : j < (l.map Prod.fst).length := by simpa using hj
  have e : (l.map Prod.fst).get ⟨i, hi2⟩ = (l.map Prod.fst).get ⟨j, hj2⟩ := by
    simp only [List.get_eq_getElem, List.getElem_map]
    simpa using h
  rw [List.get_eq_getElem, List.get_eq_getElem] at e
  have := hnd.getElem_inj_iff.mp e
  simpa using this

theorem drop_set_of_lt {α : Type} (l : List α) (i j : Nat) (a : α) (hij : i < j) :
    (l.set i a).drop j = l.drop j := by
  apply List.ext_getElem (by simp)
  intro k h1 h2
  rw [List.getElem_drop, List.getElem_drop]
  exact List.getElem_set_ne (by omega) _

theorem sum_drop_succ {l : List (String × Nat)} {i : Nat} (hi : i < l.length) :
    ((l.drop i).map Prod.snd).sum
      = (l.get ⟨i, hi⟩).2 + ((l.drop (i + 1)).map Prod.snd).sum := by
  rw [List.drop_eq_getElem_cons hi, List.map_cons, List.sum_cons]
  rfl

theorem balance_exit {A₀ B₀ over under : List (String × Nat)} {oi ui : Nat} {plan : LBPlan}
    (hfstA : over.map Prod.fst = A₀.map Prod.fst)
    (hfstB : under.map Prod.fst = B₀.map Prod.fst)
    (hIA : ∀ i (hio : i < over.length) (hiA : i < A₀.length),
      i < oi → outflow plan (over.get ⟨i, hio⟩).1 = (A₀.get ⟨i, hiA⟩).2)
    (hIB : ∀ j (hju : j < under.length) (hjB : j < B₀.length),
      j < ui → inflow plan (under.get ⟨j, hju⟩).1 = (B₀.get ⟨j, hjB⟩).2)
    (hoi : over.length ≤ oi) (hui : under.length ≤ ui) :
    (∀ i (hiA : i < A₀.length),
      outflow plan (A₀.get ⟨i, hiA⟩).1 = (A₀.get ⟨i, hiA⟩).2) ∧
    (∀ j (hjB : j < B₀.length),
      inflow plan (B₀.get ⟨j, hjB⟩).1 = (B₀.get ⟨j, hjB⟩).2) := by
  have hlenA : over.length = A₀.length := by
    have := congrArg List.length hfstA
    simpa using this
  have hlenB : under.length = B₀.length := by
    have := congrArg List.length hfstB
    simpa using this
  constructor
  · intro i hiA
    have hio : i < over.length := by omega
    rw [← get_fst_eq_of_map_fst_eq hfstA hio hiA]
    exact hIA i hio hiA (by omega)
  · intro j hjB
    have hju : j < under.length := by omega
    rw [← get_fst_eq_of_map_fst_eq hfstB hju hjB]
    exact hIB j hju hjB (by omega)

theorem balanceLoop_exact {vms : List LBVM} {A₀ B₀ : List (String × Nat)}
    (t : String → Nat)
    (hnames : (vms.map LBVM.name).Nodup)
    (hA : ∀ x ∈ A₀, vm_count_per_node vms x.1 = t x.1 + x.2)
    (hAnd : (A₀.map Prod.fst).Nodup)
    (hBnd : (B₀.map Prod.fst).Nodup) :
    ∀ (fuel : Nat) (over under : List (String × Nat)) (oi ui : Nat) (plan : LBPlan),
      over.map Prod.fst = A₀.map Prod.fst →
      under.map Prod.fst = B₀.map Prod.fst →
      (∀ i (hio : i < over.length) (hiA : i < A₀.length),
        (i < oi → outflow plan (over.get ⟨i, hio⟩).1 = (A₀.get ⟨i, hiA⟩).2) ∧
        (oi ≤ i → outflow plan (over.get ⟨i, hio⟩).1 + (over.get ⟨i, hio⟩).2
            = (A₀.get ⟨i, hiA⟩).2 ∧ 0 < (over.get ⟨i, hio⟩).2)) →
      (∀ j (hju : j < under.length) (hjB : j < B₀.length),
        (j < ui → inflow plan (under.get ⟨j, hju⟩).1 = (B₀.get ⟨j, hjB⟩).2) ∧
        (ui ≤ j → inflow plan (under.get ⟨j, hju⟩).1 + (under.get ⟨j, hju⟩).2
            = (B₀.get ⟨j, hjB⟩).2 ∧ 0 < (under.get ⟨j, hju⟩).2)) →
      (∀ e ∈ plan, ∃ vm ∈ vms, vm.name = e.1 ∧ vm.node = e.2.source_node) →
      (dictKeys plan).Nodup →
      ((over.drop oi).map Prod.snd).sum = ((under.drop ui).map Prod.snd).sum →
      over.length - oi + (under.length - ui) ≤ fuel →
      (∀ i (hiA : i < A₀.length),
        outflow (balanceLoop vms fuel over under oi ui plan) (A₀.get ⟨i, hiA⟩).1
          = (A₀.get ⟨i, hiA⟩).2) ∧
      (∀ j (hjB : j < B₀.length),
        inflow (balanceLoop vms fuel over under oi ui plan) (B₀.get ⟨j, hjB⟩).1
          = (B₀.get ⟨j, hjB⟩).2) := by
  intro fuel
  induction fuel with
  | zero =>
    intro over under oi ui plan hfstA hfstB hIA hIB hI5 hI7 hI8 hfuel
    rw [balanceLoop_zero]
    exact balance_exit hfstA hfstB (fun i hio hiA hlt => (hIA i hio hiA).1 hlt)
      (fun j hju hjB hlt => (hIB j hju hjB).1 hlt) (by omega) (by omega)
  | succ fuel ih =>
    intro over under oi ui plan hfstA hfstB hIA hIB hI5 hI7 hI8 hfuel
    have hlenA : over.length = A₀.length := by
      have := congrArg List.length hfstA
      simpa using this
    have hlenB : under.length = B₀.length := by
      have := congrArg List.length hfstB
      simpa using this
    by_cases hcond : oi < over.length ∧ ui < under.length
    case neg =>
      rw [show balanceLoop vms (fuel + 1) over under oi ui plan = plan from by
        rw [balanceLoop, dif_neg hcond]]
      have hboth : over.length ≤ oi ∧ under.length ≤ ui := by
        rcases not_and_or.mp hcond with hno | hno
        · have hoi : over.length ≤ oi := le_of_not_lt hno
          refine ⟨hoi, ?_⟩
          by_contra hui
          push_neg at hui
          rw [List.drop_eq_nil_of_le hoi] at hI8
          simp only [List.map_nil, List.sum_nil] at hI8
          have hpos := ((hIB ui hui (by omega)).2 (le_refl ui)).2
          have hmem : (under.get ⟨ui, hui⟩).2 ∈ (under.drop ui).map Prod.snd := by
            refine List.mem_map_of_mem Prod.snd ?_
            rw [List.drop_eq_getElem_cons hui]
            exact List.mem_cons_self _ _
          have := (List.sum_eq_zero_iff.mp hI8.symm) _ hmem
          omega
        · have hui : under.length ≤ ui := le_of_not_lt hno
          refine ⟨?_, hui⟩
          by_contra hoi
          push_neg at hoi
          rw [List.drop_eq_nil_of_le hui] at hI8
          simp only [List.map_nil, List.sum_nil] at hI8
          have hpos := ((hIA oi hoi (by omega)).2 (le_refl oi)).2
          have hmem : (over.get ⟨oi, hoi⟩).2 ∈ (over.drop oi).map Prod.snd := by
            refine List.mem_map_of_mem Prod.snd ?_
            rw [List.drop_eq_getElem_cons hoi]
            exact List.mem_cons_self _ _
          have := (List.sum_eq_zero_iff.mp hI8) _ hmem
          omega
      exact balance_exit hfstA hfstB (fun i hio hiA hlt => (hIA i hio hiA).1 hlt)
        (fun j hju hjB hlt => (hIB j hju hjB).1 hlt) hboth.1 hboth.2
    case pos =>
      obtain ⟨h1, h2⟩ := hcond
      have hstep : balanceLoop vms (fuel + 1) over under oi ui plan
          = balanceLoop vms fuel
            (if (over.get ⟨oi, h1⟩).2 - (migrateFrom (over.get ⟨oi, h1⟩).1
                  (under.get ⟨ui, h2⟩).1
                  (vms.filter (fun vm => decide (vm.node = (over.get ⟨oi, h1⟩).1)))
                  (min (over.get ⟨oi, h1⟩).2 (under.get ⟨ui, h2⟩).2) 0 plan).2 = 0
              then over
              else over.set oi ((over.get ⟨oi, h1⟩).1,
                (over.get ⟨oi, h1⟩).2 - (migrateFrom (over.get ⟨oi, h1⟩).1
                  (under.get ⟨ui, h2⟩).1
                  (vms.filter (fun vm => decide (vm.node = (over.get ⟨oi, h1⟩).1)))
                  (min (over.get ⟨oi, h1⟩).2 (under.get ⟨ui, h2⟩).2) 0 plan).2))
            (if (under.get ⟨ui, h2⟩).2 - (migrateFrom (over.get ⟨oi, h1⟩).1
                  (under.get ⟨ui, h2⟩).1
                  (vms.filter (fun vm => decide (vm.node = (over.get ⟨oi, h1⟩).1)))
                  (min (over.get ⟨oi, h1⟩).2 (under.get ⟨ui, h2⟩).2) 0 plan).2 = 0
              then under
              else under.set ui ((under.get ⟨ui, h2⟩).1,
                (under.get ⟨ui, h2⟩).2 - (migrateFrom (over.get ⟨oi, h1⟩).1
                  (under.get ⟨ui, h2⟩).1
                  (vms.filter (fun vm => decide (vm.node = (over.get ⟨oi, h1⟩).1)))
                  (min (over.get ⟨oi, h1⟩).2 (under.get ⟨ui, h2⟩).2) 0 plan).2))
            (if (over.get ⟨oi, h1⟩).2 - (migrateFrom (over.get ⟨oi, h1⟩).1
                  (under.get ⟨ui, h2⟩).1
                  (vms.filter (fun vm => decide (vm.node = (over.get ⟨oi, h1⟩).1)))
                  (min (over.get ⟨oi, h1⟩).2 (under.get ⟨ui, h2⟩).2) 0 plan).2 = 0
              then oi + 1 else oi)
            (if (under.get ⟨ui, h2⟩).2 - (migrateFrom (over.get ⟨oi, h1⟩).1
                  (under.get ⟨ui, h2⟩).1
                  (vms.filter (fun vm => decide (vm.node = (over.get ⟨oi, h1⟩).1)))
                  (min (over.get ⟨oi, h1⟩).2 (under.get ⟨ui, h2⟩).2) 0 plan).2 = 0
              then ui + 1 else ui)
            ((migrateFrom (over.get ⟨oi, h1⟩).1 (under.get ⟨ui, h2⟩).1
                (vms.filter (fun vm => decide (vm.node = (over.get ⟨oi, h1⟩).1)))
                (min (over.get ⟨oi, h1⟩).2 (under.get ⟨ui, h2⟩).2) 0 plan).1) := by
        rw [balanceLoop, dif_pos ⟨h1, h2⟩]
      rw [hstep]
      set src := (over.get ⟨oi, h1⟩).1 with hsrc
      set tgt := (under.get ⟨ui, h2⟩).1 with htgt
      set excess := (over.get ⟨oi, h1⟩).2 with hexcess
      set deficit := (under.get ⟨ui, h2⟩).2 with hdeficit
      set vos := vms.filter (fun vm => decide (vm.node = src)) with hvos
      set res := migrateFrom src tgt vos (min excess deficit) 0 plan with hres
      have hiA : oi < A₀.length := by omega
      have hjB : ui < B₀.length := by omega
      have hsrcA : src = (A₀.get ⟨oi, hiA⟩).1 := get_fst_eq_of_map_fst_eq hfstA h1 hiA
      have htgtB : tgt = (B₀.get ⟨ui, hjB⟩).1 := get_fst_eq_of_map_fst_eq hfstB h2 hjB
      have hinv_oi := (hIA oi h1 hiA).2 (le_refl oi)
      have hinv_ui := (hIB ui h2 hjB).2 (le_refl ui)
      rw [← hsrc, ← hexcess] at hinv_oi
      rw [← htgt, ← hdeficit] at hinv_ui
      have hvosnames : (vos.map LBVM.name).Nodup :=
        hnames.sublist (List.Sublist.map LBVM.name (List.filter_sublist vms))
      have hclaimed : vms.countP
          (fun vm => decide (vm.node = src) && decide (vm.name ∈ dictKeys plan))
          = outflow plan src := claimed_count_eq_outflow hnames src hI7 hI5
      have hunclaimed : (vos.filter (fun vm => !decide (vm.name ∈ dictKeys plan))).length
          = vm_count_per_node vms src - outflow plan src := by
        have e1 : (vos.filter (fun vm => !decide (vm.name ∈ dictKeys plan))).length
            = vms.countP (fun vm =>
                !decide (vm.name ∈ dictKeys plan) && decide (vm.node = src)) := by
          rw [← List.countP_eq_length_filter, hvos, List.countP_filter]
        have e2 : vm_count_per_node vms src
            = vms.countP (fun vm => decide (vm.node = src)) := by
          rw [vm_count_per_node, ← List.countP_eq_length_filter]
        have e3 : vms.countP (fun vm => decide (vm.node = src))
            = vms.countP (fun vm =>
                decide (vm.node = src) && decide (vm.name ∈ dictKeys plan))
              + vms.countP (fun vm =>
                decide (vm.node = src) && !decide (vm.name ∈ dictKeys plan)) := by
          rw [← countP_disj
            (fun vm : LBVM => decide (vm.node = src) && decide (vm.name ∈ dictKeys plan))
            (fun vm : LBVM => decide (vm.node = src) && !decide (vm.name ∈ dictKeys plan))
            (by
              rintro vm ⟨ha, hb⟩
              simp only [Bool.and_eq_true] at ha hb
              rw [ha.2] at hb
              simp at hb)]
          apply List.countP_congr
          intro vm _
          by_cases hm : vm.name ∈ dictKeys plan <;> by_cases hn : vm.node = src <;>
            simp [hm, hn]
        have e4 : vms.countP (fun vm =>
              !decide (vm.name ∈ dictKeys plan) && decide (vm.node = src))
            = vms.countP (fun vm =>
              decide (vm.node = src) && !decide (vm.name ∈ dictKeys plan)) := by
          apply List.countP_congr
          intro vm _
          rw [Bool.and_comm]
        omega
      have hcount : vm_count_per_node vms src = t src + (A₀.get ⟨oi, hiA⟩).2 := by
        rw [hsrcA]
        exact hA _ (A₀.get_mem _ _)
      have hminle : min excess deficit ≤ excess := Nat.min_le_left _ _
      have hminld : min excess deficit ≤ deficit := Nat.min_le_right _ _
      have hub : min excess deficit ≤ 0 +
          (vos.filter (fun vm => !decide (vm.name ∈ dictKeys plan))).length := by
        rw [hunclaimed]
        omega
      have hexact : res.2 = min excess deficit := by
        rw [hres]
        exact migrateFrom_exact hvosnames (Nat.zero_le _) hub
      obtain ⟨d, hd, hdle, hout, hin⟩ :=
        @migrateFrom_counts src tgt vos (min excess deficit) 0 plan (Nat.zero_le _)
      rw [← hres] at hd hout hin
      have hd_eq : d = min excess deficit := by omega
      rw [hd_eq] at hout hin
      have hI5' : ∀ e ∈ res.1, ∃ vm ∈ vms, vm.name = e.1 ∧ vm.node = e.2.source_node := by
        intro e he
        rw [hres] at he
        rcases migrateFrom_mem he with h' | ⟨⟨vm, hvm, hname⟩, hmv⟩
        · exact hI5 e h'
        · rcases List.mem_filter.mp hvm with ⟨hvmem, hcond⟩
          refine ⟨vm, hvmem, hname, ?_⟩
          rw [hmv]
          simpa using hcond
      have hI7' : (dictKeys res.1).Nodup := by
        rw [hres]
        exact migrateFrom_nodup hI7
      have hOnodup : (over.map Prod.fst).Nodup := by rw [hfstA]; exact hAnd
      have hUnodup : (under.map Prod.fst).Nodup := by rw [hfstB]; exact hBnd
      have hne_src : ∀ i (hio : i < over.length), i ≠ oi → (over.get ⟨i, hio⟩).1 ≠ src := by
        intro i hio hine hceq
        rw [hsrc] at hceq
        exact hine (fst_get_inj hOnodup hio h1 hceq)
      have hne_tgt : ∀ j (hju : j < under.length), j ≠ ui →
          (under.get ⟨j, hju⟩).1 ≠ tgt := by
        intro j hju hjne hceq
        rw [htgt] at hceq
        exact hjne (fst_get_inj hUnodup hju h2 hceq)
      have hst : ∀ n, outflow res.1 n
          = outflow plan n + if src = n then min excess deficit else 0 := hout
      have hit : ∀ n, inflow res.1 n
          = inflow plan n + if tgt = n then min excess deficit else 0 := hin
      have hIA' : ∀ (oi2 : Nat) (over2 : List (String × Nat)),
          over2.map Prod.fst = A₀.map Prod.fst →
          (∀ i (hio : i < over.length) (hio2 : i < over2.length),
            i ≠ oi → over2.get ⟨i, hio2⟩ = over.get ⟨i, hio⟩) →
          (∀ (hio2 : oi < over2.length),
            (oi < oi2 → outflow res.1 (over2.get ⟨oi, hio2⟩).1 = (A₀.get ⟨oi, hiA⟩).2) ∧
            (oi2 ≤ oi → (over2.get ⟨oi, hio2⟩).1 = src ∧
              outflow res.1 src + (over2.get ⟨oi, hio2⟩).2 = (A₀.get ⟨oi, hiA⟩).2 ∧
              0 < (over2.get ⟨oi, hio2⟩).2)) →
          (oi ≤ oi2 ∧ oi2 ≤ oi + 1) →
          ∀ i (hio2 : i < over2.length) (hiA2 : i < A₀.length),
            (i < oi2 → outflow res.1 (over2.get ⟨i, hio2⟩).1 = (A₀.get ⟨i, hiA2⟩).2) ∧
            (oi2 ≤ i → outflow res.1 (over2.get ⟨i, hio2⟩).1 + (over2.get ⟨i, hio2⟩).2
                = (A₀.get ⟨i, hiA2⟩).2 ∧ 0 < (over2.get ⟨i, hio2⟩).2) := by
        intro oi2 over2 hfst2 hsame hoi2 hrange i hio2 hiA2
        have hlen2 : over2.length = over.length := by
          have e1 := congrArg List.length hfst2
          have e2 := congrArg List.length hfstA
          simp only [List.length_map] at e1 e2
          omega
        have hio : i < over.length := by omega
        by_cases hieq : i = oi
        · subst hieq
          constructor
          · intro hlt
            exact (hoi2 hio2).1 hlt
          · intro hge
            obtain ⟨hfsteq, heq, hpos⟩ := (hoi2 hio2).2 hge
            rw [hfsteq]
            exact ⟨heq, hpos⟩
        · have hsameentry := hsame i hio hio2 hieq
          have hnesrc := hne_src i hio hieq
          have hflow : outflow res.1 (over2.get ⟨i, hio2⟩).1
              = outflow plan (over.get ⟨i, hio⟩).1 := by
            rw [hsameentry, hst, if_neg (fun hc => hnesrc hc.symm), Nat.add_zero]
          constructor
          · intro hlt
            rw [hflow]
            exact (hIA i hio hiA2).1 (by omega)
          · intro hge
            rw [hflow, hsameentry]
            exact (hIA i hio hiA2).2 (by omega)
      have hIB' : ∀ (ui2 : Nat) (under2 : List (String × Nat)),
          under2.map Prod.fst = B₀.map Prod.fst →
          (∀ j (hju : j < under.length) (hju2 : j < under2.length),
            j ≠ ui → under2.get ⟨j, hju2⟩ = under.get ⟨j, hju⟩) →
          (∀ (hju2 : ui < under2.length),
            (ui < ui2 → inflow res.1 (under2.get ⟨ui, hju2⟩).1 = (B₀.get ⟨ui, hjB⟩).2) ∧
            (ui2 ≤ ui → (under2.get ⟨ui, hju2⟩).1 = tgt ∧
              inflow res.1 tgt + (under2.get ⟨ui, hju2⟩).2 = (B₀.get ⟨ui, hjB⟩).2 ∧
              0 < (under2.get ⟨ui, hju2⟩).2)) →
          (ui ≤ ui2 ∧ ui2 ≤ ui + 1) →
          ∀ j (hju2 : j < under2.length) (hjB2 : j < B₀.length),
            (j < ui2 → inflow res.1 (under2.get ⟨j, hju2⟩).1 = (B₀.get ⟨j, hjB2⟩).2) ∧
            (ui2 ≤ j → inflow res.1 (under2.get ⟨j, hju2⟩).1 + (under2.get ⟨j, hju2⟩).2
                = (B₀.get ⟨j, hjB2⟩).2 ∧ 0 < (under2.get ⟨j, hju2⟩).2) := by
        intro ui2 under2 hfst2 hsame hui2 hrange j hju2 hjB2
        have hlen2 : under2.length = under.length := by
          have e1 := congrArg List.length hfst2
          have e2 := congrArg List.length hfstB
          simp only [List.length_map] at e1 e2
          omega
        have hju : j < under.length := by omega
        by_cases hjeq : j = ui
        · subst hjeq
          constructor
          · intro hlt
            exact (hui2 hju2).1 hlt
          · intro hge
            obtain ⟨hfsteq, heq, hpos⟩ := (hui2 hju2).2 hge
            rw [hfsteq]
            exact ⟨heq, hpos⟩
        · have hsameentry := hsame j hju hju2 hjeq
          have hnetgt := hne_tgt j hju hjeq
          have hflow : inflow res.1 (under2.get ⟨j, hju2⟩).1
              = inflow plan (under.get ⟨j, hju⟩).1 := by
            rw [hsameentry, hit, if_neg (fun hc => hnetgt hc.symm), Nat.add_zero]
          constructor
          · intro hlt
            rw [hflow]
            exact (hIB j hju hjB2).1 (by omega)
          · intro hge
            rw [hflow, hsameentry]
            exact (hIB j hju hjB2).2 (by omega)
      have hsumo := sum_drop_succ h1
      have hsumu := sum_drop_succ h2
      rw [← hexcess] at hsumo
      rw [← hdeficit] at hsumu
      by_cases hre : excess - res.2 = 0
      · rw [if_pos hre, if_pos hre]
        have hexeq : excess = min excess deficit := by omega
        by_cases hrd : deficit - res.2 = 0
        · rw [if_pos hrd, if_pos hrd]
          have hdeq : deficit = min excess deficit := by omega
          refine ih over under (oi + 1) (ui + 1) res.1 hfstA hfstB ?_ ?_ hI5' hI7' ?_ ?_
          · refine hIA' (oi + 1) over hfstA (fun i hio hio2 _ => rfl) ?_
              ⟨by omega, by omega⟩
            intro hio2
            constructor
            · intro _
              have : (over.get ⟨oi, hio2⟩).1 = src := by
                rw [hsrc]
              rw [this, hst, if_pos rfl]
              omega
            · intro hcon
              omega
          · refine hIB' (ui + 1) under hfstB (fun j hju hju2 _ => rfl) ?_
              ⟨by omega, by omega⟩
            intro hju2
            constructor
            · intro _
              have : (under.get ⟨ui, hju2⟩).1 = tgt := by
                rw [htgt]
              rw [this, hit, if_pos rfl]
              omega
            · intro hcon
              omega
          · omega
          · omega
        · rw [if_neg hrd, if_neg hrd]
          have hsetfstB : (under.set ui (tgt, deficit - res.2)).map Prod.fst
              = B₀.map Prod.fst := by
            rw [List.map_set]
            have : (under.map Prod.fst).set ui (tgt, deficit - res.2).1
                = under.map Prod.fst := by
              apply List.ext_getElem (by simp)
              intro k hk1 hk2
              by_cases hkui : k = ui
              · subst hkui
                rw [List.getElem_set_self]
                rw [htgt]
                simp [List.getElem_map]
              · rw [List.getElem_set_ne (fun hc => hkui hc.symm)]
            rw [this, hfstB]
          refine ih over (under.set ui (tgt, deficit - res.2)) (oi + 1) ui res.1
            hfstA hsetfstB ?_ ?_ hI5' hI7' ?_ ?_
          · refine hIA' (oi + 1) over hfstA (fun i hio hio2 _ => rfl) ?_
              ⟨by omega, by omega⟩
            intro hio2
            constructor
            · intro _
              have : (over.get ⟨oi, hio2⟩).1 = src := by
                rw [hsrc]
              rw [this, hst, if_pos rfl]
              omega
            · intro hcon
              omega
          · refine hIB' ui (under.set ui (tgt, deficit - res.2)) hsetfstB ?_ ?_
              ⟨by omega, by omega⟩
            · intro j hju hju2 hjne
              simp only [List.get_eq_getElem]
              rw [List.getElem_set_ne (fun hc => hjne hc.symm)]
            · intro hju2
              constructor
              · intro hcon
                omega
              · intro _
                refine ⟨?_, ?_, ?_⟩
                · simp only [List.get_eq_getElem]
                  rw [List.getElem_set_self]
                · simp only [List.get_eq_getElem]
                  rw [List.getElem_set_self]
                  rw [hit, if_pos rfl]
                  simp only [List.get_eq_getElem] at hinv_ui
                  omega
                · simp only [List.get_eq_getElem]
                  rw [List.getElem_set_self]
                  omega
          · have hdropu : (under.set ui (tgt, deficit - res.2)).drop ui
                = (tgt, deficit - res.2) :: under.drop (ui + 1) := by
              rw [List.drop_eq_getElem_cons (by
                rw [List.length_set]
                exact h2)]
              congr 1
              · exact List.getElem_set_self _
              · exact drop_set_of_lt under ui (ui + 1) _ (by omega)
            rw [hdropu, List.map_cons, List.sum_cons]
            omega
          · rw [List.length_set]
            omega
      · rw [if_neg hre, if_neg hre]
        have hegt : min excess deficit < excess := by omega
        have hrd : deficit - res.2 = 0 := by omega
        rw [if_pos hrd, if_pos hrd]
        have hdeq : deficit = min excess deficit := by omega
        have hsetfstA : (over.set oi (src, excess - res.2)).map Prod.fst
            = A₀.map Prod.fst := by
          rw [List.map_set]
          have : (over.map Prod.fst).set oi (src, excess - res.2).1
              = over.map Prod.fst := by
            apply List.ext_getElem (by simp)
            intro k hk1 hk2
            by_cases hkoi : k = oi
            · subst hkoi
              rw [List.getElem_set_self]
              rw [hsrc]
              simp [List.getElem_map]
            · rw [List.getElem_set_ne (fun hc => hkoi hc.symm)]
          rw [this, hfstA]
        refine ih (over.set oi (src, excess - res.2)) under oi (ui + 1) res.1
          hsetfstA hfstB ?_ ?_ hI5' hI7' ?_ ?_
        · refine hIA' oi (over.set oi (src, excess - res.2)) hsetfstA ?_ ?_
            ⟨by omega, by omega⟩
          · intro i hio hio2 hine
            simp only [List.get_eq_getElem]
            rw [List.getElem_set_ne (fun hc => hine hc.symm)]
          · intro hio2
            constructor
            · intro hcon
              omega
            · intro _
              refine ⟨?_, ?_, ?_⟩
              · simp only [List.get_eq_getElem]
                rw [List.getElem_set_self]
              · simp only [List.get_eq_getElem]
                rw [List.getElem_set_self]
                rw [hst, if_pos rfl]
                simp only [List.get_eq_getElem] at hinv_oi
                omega
              · simp only [List.get_eq_getElem]
                rw [List.getElem_set_self]
                omega
        · refine hIB' (ui + 1) under hfstB (fun j hju hju2 _ => rfl) ?_
            ⟨by omega, by omega⟩
          intro hju2
          constructor
          · intro _
            have : (under.get ⟨ui, hju2⟩).1 = tgt := by
              rw [htgt]
            rw [this, hit, if_pos rfl]
            omega
          · intro hcon
            omega
        · have hdropo : (over.set oi (src, excess - res.2)).drop oi
              = (src, excess - res.2) :: over.drop (oi + 1) := by
            rw [List.drop_eq_getElem_cons (by
              rw [List.length_set]
              exact h1)]
            congr 1
            · exact List.getElem_set_self _
            · exact drop_set_of_lt over oi (oi + 1) _ (by omega)
          rw [hdropo, List.map_cons, List.sum_cons]
          omega
        · rw [List.length_set]
          omega

theorem inflow_eq_zero {plan : LBPlan} {n : String}
    (h : ∀ e ∈ plan, ¬(e.2.target_node = n)) : inflow plan n = 0 := by
  rw [inflow, List.length_eq_zero, List.filter_eq_nil_iff]
  intro e he
  simpa using h e he

theorem outflow_eq_zero {plan : LBPlan} {n : String}
    (h : ∀ e ∈ plan, ¬(e.2.source_node = n)) : outflow plan n = 0 := by
  rw [outflow, List.length_eq_zero, List.filter_eq_nil_iff]
  intro e he
  simpa using h e he

/-- **C2** (amended) — On inputs with distinct VM names, distinct online
node identifiers and every VM sitting on an online node, the rebalance
planner is exact: for every online node, the starting VM count plus the
number of plan entries naming it as target equals the computed target
count (total VM count integer-divided by the online-node count, plus one
for each of the first remainder nodes in lexicographic order) plus the
number of plan entries naming it as source.  As frozen — over all
inputs — the claim fails: VMs on offline or unknown nodes inflate the
total count used by the target distribution (see the counterexample). -/
theorem c2_each_online_node_reaches_target (vms : List LBVM) (nodes : List LBNode)
    (hnames : (vms.map LBVM.name).Nodup)
    (hnodes : (online_nodes nodes).Nodup)
    (hall : ∀ vm ∈ vms, vm.node ∈ online_nodes nodes) :
    ∀ n ∈ online_nodes nodes,
      vm_count_per_node vms n + inflow (load_balance_plan vms nodes) n
        = target_count vms nodes n + outflow (load_balance_plan vms nodes) n := by
  intro n hn
  have h1le : 1 ≤ (online_nodes nodes).length :=
    List.length_pos.mpr (List.ne_nil_of_mem hn)
  rw [load_balance_plan_eq]
  by_cases hdeg : vms = [] ∨ nodes = []
  · rw [if_pos hdeg]
    rcases hdeg with rfl | rfl
    · have hmem : n ∈ stableSort pyStrLe (online_nodes nodes) :=
        (stableSort_perm _ _).mem_iff.mpr hn
      rcases List.mem_iff_get.mp hmem with ⟨i, hi⟩
      have ht := @target_count_eq [] nodes hnodes n i.1 i.isLt hi
      have hb : target_base ([] : List LBVM) nodes = 0 := Nat.zero_div _
      have hr : target_remainder ([] : List LBVM) nodes = 0 := Nat.zero_mod _
      rw [hb, hr, if_neg (show ¬ i.1 < 0 by omega)] at ht
      have hc : vm_count_per_node [] n = 0 := rfl
      have hio : inflow ([] : LBPlan) n = 0 := rfl
      have hoo : outflow ([] : LBPlan) n = 0 := rfl
      omega
    · simp [online_nodes] at hn
  · rw [if_neg hdeg]
    by_cases hone : (online_nodes nodes).length < 2
    · rw [if_pos hone]
      have hlen1 : (online_nodes nodes).length = 1 := by omega
      rcases List.length_eq_one.mp hlen1 with ⟨a, ha⟩
      have hna : n = a := by
        rw [ha] at hn
        simpa using hn
      subst hna
      have hcount : vm_count_per_node vms n = vms.length := by
        rw [vm_count_per_node]
        have hfe : vms.filter (fun vm => decide (vm.node = n)) = vms := by
          rw [List.filter_eq_self]
          intro vm hvm
          have h := hall vm hvm
          rw [ha] at h
          simp only [List.mem_singleton] at h
          simpa using h
        rw [hfe]
      have hsorted : stableSort pyStrLe (online_nodes nodes) = [n] := by
        refine List.perm_singleton.mp ?_
        rw [← ha]
        exact stableSort_perm pyStrLe (online_nodes nodes)
      have hb : target_base vms nodes = vms.length := by
        unfold target_base
        rw [ha]
        exact Nat.div_one _
      have hr : target_remainder vms nodes = 0 := by
        unfold target_remainder
        rw [ha]
        exact Nat.mod_one _
      have htarget : target_count vms nodes n = vms.length := by
        unfold target_count
        rw [target_distribution_eq hnodes, hsorted]
        show (dictLookup n [(n, target_base vms nodes +
            if 0 < target_remainder vms nodes then 1 else 0)]).getD 0 = vms.length
        rw [hr, if_neg (show ¬ (0 : Nat) < 0 by omega), Nat.add_zero, hb]
        simp [dictLookup]
      have hio : inflow ([] : LBPlan) n = 0 := rfl
      have hoo : outflow ([] : LBPlan) n = 0 := rfl
      omega
    · rw [if_neg hone]
      have hA : ∀ x ∈ overloaded_nodes vms nodes,
          vm_count_per_node vms x.1 = target_count vms nodes x.1 + x.2 := by
        intro x hx
        obtain ⟨-, hlt, hval⟩ := overloaded_nodes_mem hx
        omega
      have hAnd := @overloaded_fst_nodup vms nodes hnodes
      have hBnd := @underloaded_fst_nodup vms nodes hnodes
      have hIA0 : ∀ i (hio : i < (overloaded_nodes vms nodes).length)
          (hiA : i < (overloaded_nodes vms nodes).length),
          (i < 0 → outflow [] ((overloaded_nodes vms nodes).get ⟨i, hio⟩).1
            = ((overloaded_nodes vms nodes).get ⟨i, hiA⟩).2) ∧
          (0 ≤ i → outflow [] ((overloaded_nodes vms nodes).get ⟨i, hio⟩).1
              + ((overloaded_nodes vms nodes).get ⟨i, hio⟩).2
            = ((overloaded_nodes vms nodes).get ⟨i, hiA⟩).2 ∧
            0 < ((overloaded_nodes vms nodes).get ⟨i, hio⟩).2) := by
        intro i hio hiA
        refine ⟨fun h => absurd h (by omega), fun _ => ⟨?_, ?_⟩⟩
        · have h0 : outflow ([] : LBPlan)
              ((overloaded_nodes vms nodes).get ⟨i, hio⟩).1 = 0 := rfl
          rw [h0, Nat.zero_add]
        · obtain ⟨-, hlt, hval⟩ := overloaded_nodes_mem
            ((overloaded_nodes vms nodes).get_mem i hio)
          omega
      have hIB0 : ∀ j (hju : j < (underloaded_nodes vms nodes).length)
          (hjB : j < (underloaded_nodes vms nodes).length),
          (j < 0 → inflow [] ((underloaded_nodes vms nodes).get ⟨j, hju⟩).1
            = ((underloaded_nodes vms nodes).get ⟨j, hjB⟩).2) ∧
          (0 ≤ j → inflow [] ((underloaded_nodes vms nodes).get ⟨j, hju⟩).1
              + ((underloaded_nodes vms nodes).get ⟨j, hju⟩).2
            = ((underloaded_nodes vms nodes).get ⟨j, hjB⟩).2 ∧
            0 < ((underloaded_nodes vms nodes).get ⟨j, hju⟩).2) := by
        intro j hju hjB
        refine ⟨fun h => absurd h (by omega), fun _ => ⟨?_, ?_⟩⟩
        · have h0 : inflow ([] : LBPlan)
              ((underloaded_nodes vms nodes).get ⟨j, hju⟩).1 = 0 := rfl
          rw [h0, Nat.zero_add]
        · obtain ⟨-, hlt, hval⟩ := underloaded_nodes_mem
            ((underloaded_nodes vms nodes).get_mem j hju)
          omega
      have hI80 : (((overloaded_nodes vms nodes).drop 0).map Prod.snd).sum
          = (((underloaded_nodes vms nodes).drop 0).map Prod.snd).sum := by
        simp only [List.drop_zero]
        exact sum_excess_eq_sum_deficit hnodes h1le hall
      obtain ⟨hOut, hIn⟩ := @balanceLoop_exact vms (overloaded_nodes vms nodes)
        (underloaded_nodes vms nodes) (target_count vms nodes) hnames hA hAnd hBnd
        ((overloaded_nodes vms nodes).length + (underloaded_nodes vms nodes).length)
        (overloaded_nodes vms nodes) (underloaded_nodes vms nodes) 0 0 []
        rfl rfl hIA0 hIB0
        (fun e he => absurd he (List.not_mem_nil _)) List.nodup_nil hI80 (by omega)
      have hmemP : ∀ e ∈ balanceLoop vms
          ((overloaded_nodes vms nodes).length + (underloaded_nodes vms nodes).length)
          (overloaded_nodes vms nodes) (underloaded_nodes vms nodes) 0 0 [],
          e.2.source_node ∈ (overloaded_nodes vms nodes).map Prod.fst ∧
          e.2.target_node ∈ (underloaded_nodes vms nodes).map Prod.fst := by
        refine balanceLoop_entries _
          (fun so => so ∈ (overloaded_nodes vms nodes).map Prod.fst)
          (fun tg => tg ∈ (underloaded_nodes vms nodes).map Prod.fst) ?_ _ ?_ ?_ ?_
        · intro vm so tg _ _ hso htg
          exact ⟨hso, htg⟩
        · intro x hx
          exact List.mem_map_of_mem Prod.fst hx
        · intro x hx
          exact List.mem_map_of_mem Prod.fst hx
        · intro e he
          cases he
      by_cases hovm : n ∈ (overloaded_nodes vms nodes).map Prod.fst
      · rcases List.mem_map.mp hovm with ⟨x, hx, hxn⟩
        rcases List.mem_iff_get.mp hx with ⟨i, hget⟩
        have hflow := hOut i.1 i.isLt
        rw [show (overloaded_nodes vms nodes).get ⟨i.1, i.isLt⟩ = x from hget,
          hxn] at hflow
        have hin0 : inflow (balanceLoop vms
            ((overloaded_nodes vms nodes).length + (underloaded_nodes vms nodes).length)
            (overloaded_nodes vms nodes) (underloaded_nodes vms nodes) 0 0 []) n = 0 := by
          apply inflow_eq_zero
          intro e he heq
          exact over_under_disjoint hnodes n hovm (heq ▸ (hmemP e he).2)
        obtain ⟨-, hlt, hval⟩ := overloaded_nodes_mem hx
        rw [hxn] at hlt hval
        omega
      · by_cases hunm : n ∈ (underloaded_nodes vms nodes).map Prod.fst
        · rcases List.mem_map.mp hunm with ⟨x, hx, hxn⟩
          rcases List.mem_iff_get.mp hx with ⟨i, hget⟩
          have hflow := hIn i.1 i.isLt
          rw [show (underloaded_nodes vms nodes).get ⟨i.1, i.isLt⟩ = x from hget,
            hxn] at hflow
          have hout0 : outflow (balanceLoop vms
              ((overloaded_nodes vms nodes).length + (underloaded_nodes vms nodes).length)
              (overloaded_nodes vms nodes) (underloaded_nodes vms nodes) 0 0 []) n = 0 := by
            apply outflow_eq_zero
            intro e he heq
            exact over_under_disjoint hnodes n (heq ▸ (hmemP e he).1) hunm
          obtain ⟨-, hlt, hval⟩ := underloaded_nodes_mem hx
          rw [hxn] at hlt hval
          omega
        · have hnlt1 : ¬ target_count vms nodes n < vm_count_per_node vms n := fun hlt =>
            hovm ((overloaded_fst_perm hnodes).mem_iff.mpr
              (List.mem_filter.mpr ⟨hn, by simpa using hlt⟩))
          have hnlt2 : ¬ vm_count_per_node vms n < target_count vms nodes n := fun hlt =>
            hunm ((underloaded_fst_perm hnodes).mem_iff.mpr
              (List.mem_filter.mpr ⟨hn, by simpa using hlt⟩))
          have hin0 : inflow (balanceLoop vms
              ((overloaded_nodes vms nodes).length + (underloaded_nodes vms nodes).length)
              (overloaded_nodes vms nodes) (underloaded_nodes vms nodes) 0 0 []) n = 0 :=
            inflow_eq_zero (fun e he heq => hunm (heq ▸ (hmemP e he).2))
          have hout0 : outflow (balanceLoop vms
              ((overloaded_nodes vms nodes).length + (underloaded_nodes vms nodes).length)
              (overloaded_nodes vms nodes) (underloaded_nodes vms nodes) 0 0 []) n = 0 :=
            outflow_eq_zero (fun e he heq => hovm (heq ▸ (hmemP e he).1))
          omega

/-- Counterexample to C2 as frozen (over *all* inputs): a VM parked on
the absent node `"n3"` inflates `total_vms`, so node `"n2"` finishes
below its computed quota — its count plus inflow is 0 while its target
plus outflow is 1. -/
theorem c2_counterexample :
    ∃ (vms : List LBVM) (nodes : List LBNode) (n : String),
      n ∈ online_nodes nodes ∧
      vm_count_per_node vms n + inflow (load_balance_plan vms nodes) n
        ≠ target_count vms nodes n + outflow (load_balance_plan vms nodes) n := by
  refine ⟨[⟨"vm1", "n1"⟩, ⟨"vm2", "n1"⟩, ⟨"vm3", "n3"⟩],
    [⟨"n1", "online"⟩, ⟨"n2", "online"⟩], "n2", ?_, ?_⟩ <;> decide

/-- The amended C2 theorem at a concrete input: two VMs on `"n1"`, two
online nodes; each hypothesis holds and each online node reaches its
target exactly. -/
theorem c2_witness :
    ((([⟨"vm1", "n1"⟩, ⟨"vm2", "n1"⟩] : List LBVM).map LBVM.name).Nodup) ∧
    ((online_nodes [⟨"n1", "online"⟩, ⟨"n2", "online"⟩]).Nodup) ∧
    (∀ vm ∈ ([⟨"vm1", "n1"⟩, ⟨"vm2", "n1"⟩] : List LBVM),
      vm.node ∈ online_nodes [⟨"n1", "online"⟩, ⟨"n2", "online"⟩]) ∧
    (∀ n ∈ online_nodes [⟨"n1", "online"⟩, ⟨"n2", "online"⟩],
      vm_count_per_node [⟨"vm1", "n1"⟩, ⟨"vm2", "n1"⟩] n
          + inflow (load_balance_plan [⟨"vm1", "n1"⟩, ⟨"vm2", "n1"⟩]
              [⟨"n1", "online"⟩, ⟨"n2", "online"⟩]) n
        = target_count [⟨"vm1", "n1"⟩, ⟨"vm2", "n1"⟩]
              [⟨"n1", "online"⟩, ⟨"n2", "online"⟩] n
          + outflow (load_balance_plan [⟨"vm1", "n1"⟩, ⟨"vm2", "n1"⟩]
              [⟨"n1", "online"⟩, ⟨"n2", "online"⟩]) n) :=
  ⟨by decide, by decide, by decide,
    c2_each_online_node_reaches_target _ _ (by decide) (by decide) (by decide)⟩

end ProxmoxUpgrade
